import Mathlib

/-!
Shallow embedding of the go-gg `table` package (files `table/table.go` and
the SortBy half of the same package) together with theorems settling the
frozen claims about it.

Modelling conventions:
* Go slices are `Slc` (an element type tag plus the list of values), since a
  Go slice knows its element type even when empty (`reflect.TypeOf(c).Elem()`).
* Go `map[string]...` fields are association lists; Go maps never hold a key
  twice and the code only ever inserts fresh keys (insert = append).
* Go panics are modelled as `Except TErr`.
* The in-place memoization performed by `Table.Column` (it stores the
  expansion of a constant column into `t.cols`) is modelled by returning the
  updated table alongside the result: `Table.column : ... → Option Slc × Table`.
* `sort.Stable` (Go standard library, outside this repository) is modelled
  from its documented contract as a stable insertion sort over the index
  permutation; `generic.Repeat`, `generic.MultiIndex` and `generic.Sorter`
  (package `generic` of this repository, not under `src/`) are modelled from
  the spec, see their doc comments.
-/

namespace GoGG

/-- Element types of column values (a closed sample of Go types; `bool` is a
type that Go's natural ordering does not order, `int` and `str` are ordered). -/
inductive Ty : Type where
  | int : Ty
  | str : Ty
  | bool : Ty
deriving DecidableEq, Repr

/-- Column values. -/
inductive Val : Type where
  | int : Int → Val
  | str : String → Val
  | bool : Bool → Val
deriving DecidableEq, Repr

instance : Inhabited Val := ⟨.int 0⟩

/-- The Go dynamic type of a value (`reflect.TypeOf`). -/
def Val.ty : Val → Ty
  | .int _ => .int
  | .str _ => .str
  | .bool _ => .bool

/-- A Go slice: its element type (known even when the slice is empty) and its
elements. -/
structure Slc : Type where
  elemTy : Ty
  data : List Val
deriving DecidableEq, Repr

/-- The panics the modelled code can raise. -/
inductive TErr : Type where
  | lengthMismatch : String → Nat → Nat → TErr
  | unknownColumn : String → TErr
  | typeMismatch : String → Option Ty → Option Ty → TErr
  | missingColumn : String → TErr
  | extraColumn : String → TErr
  | unorderable : String → Ty → TErr
  | nilGroupTable : Nat → TErr
deriving DecidableEq, Repr

instance {ε α : Type} [DecidableEq ε] [DecidableEq α] : DecidableEq (Except ε α) := by
  intro x y
  cases x <;> cases y
  case error.error a b =>
    exact if h : a = b then .isTrue (congrArg _ h) else .isFalse (fun hc => h (Except.error.inj hc))
  case error.ok a b => exact .isFalse (fun hc => Except.noConfusion hc)
  case ok.error a b => exact .isFalse (fun hc => Except.noConfusion hc)
  case ok.ok a b =>
    exact if h : a = b then .isTrue (congrArg _ h) else .isFalse (fun hc => h (Except.ok.inj hc))

/-- Association-list lookup, modelling Go map access. -/
def alook {κ α : Type} [DecidableEq κ] : List (κ × α) → κ → Option α
  | [], _ => none
  | (k, v) :: rest, n => if k = n then some v else alook rest n

/-- `table.Table`: regular columns, constant columns, ordered column names and
the cached row count. -/
structure Table : Type where
  cols : List (String × Slc)
  consts : List (String × Val)
  colNames : List String
  len : Nat
deriving DecidableEq, Repr

/-- The zero value of `Table`: the canonical empty table. -/
def emptyTable : Table := ⟨[], [], [], 0⟩

/-- `Table.cloneSans`: clone of `t` without column `name`.  The Go loop walks
`t.colNames`, skips `name`, copies the `cols` and `consts` entries that exist
and rebuilds the name list; expressed here by filtering the name list. -/
def Table.cloneSans (t : Table) (name : String) : Table where
  cols := (t.colNames.filter (fun n => n ≠ name)).filterMap
    (fun n => (alook t.cols n).map (fun c => (n, c)))
  consts := (t.colNames.filter (fun n => n ≠ name)).filterMap
    (fun n => (alook t.consts n).map (fun cv => (n, cv)))
  colNames := t.colNames.filter (fun n => n ≠ name)
  len := t.len

/-- `Table.Add`.  `data = none` models a nil slice (column removal); a panic
is a `.error`. -/
def Table.add (t : Table) (name : String) (data : Option Slc) : Except TErr Table :=
  match data with
  | none =>
    if (alook t.cols name).isNone ∧ (alook t.consts name).isNone then .ok t
    else if t.colNames.length = 1 then .ok emptyTable
    else .ok (t.cloneSans name)
  | some d =>
    let nt := t.cloneSans name
    if nt.cols.isEmpty then
      .ok { nt with cols := nt.cols ++ [(name, d)], len := d.data.length,
                    colNames := nt.colNames ++ [name] }
    else if nt.len ≠ d.data.length then
      .error (.lengthMismatch name d.data.length nt.len)
    else
      .ok { nt with cols := nt.cols ++ [(name, d)], colNames := nt.colNames ++ [name] }

/-- `Table.AddConst`. -/
def Table.addConst (t : Table) (name : String) (v : Val) : Table :=
  let nt := t.cloneSans name
  { nt with consts := nt.consts ++ [(name, v)], colNames := nt.colNames ++ [name] }

/-- `Table.Column`.  Returns the column (expanding and memoizing a constant
column) together with the table state after the call: the Go code mutates
`t.cols` in place to cache the expansion (`generic.Repeat`, modelled from the
spec, repeats the value to the table's length). -/
def Table.column (t : Table) (name : String) : Option Slc × Table :=
  match alook t.cols name with
  | some c => (some c, t)
  | none =>
    match alook t.consts name with
    | some cv =>
      let expanded : Slc := ⟨cv.ty, List.replicate t.len cv⟩
      (some expanded, { t with cols := t.cols ++ [(name, expanded)] })
    | none => (none, t)

/-- `Table.Const`: the raw constant value, `none` when `name` is not a
constant column. -/
def Table.constVal (t : Table) (name : String) : Option Val :=
  alook t.consts name

/-- `Table.isEmpty`: the Go code tests `t.colNames == nil`. -/
def Table.isEmpty (t : Table) : Prop := t.colNames = []

instance (t : Table) : Decidable t.isEmpty := by
  unfold Table.isEmpty; infer_instance

/-- `groupedTable`. -/
structure GroupedTable : Type where
  tables : List (Nat × Table)
  groups : List Nat
  colNames : List String
deriving DecidableEq, Repr

/-- Group ids are opaque tokens (modelled from the spec; `table/gid.go` is not
under `src/`): naturals, with `0` as `RootGroupID`. -/
def rootGID : Nat := 0

/-- The eviction loop at the start of `groupedTable.AddTable`: rebuild the
grouped table without group `gid`. -/
def GroupedTable.evict (g : GroupedTable) (gid : Nat) : GroupedTable where
  tables := (g.groups.filter (fun x => x ≠ gid)).filterMap
    (fun x => (alook g.tables x).map (fun tb => (x, tb)))
  groups := g.groups.filter (fun x => x ≠ gid)
  colNames := g.colNames

/-- The per-column schema check of `groupedTable.AddTable`: for each
established column name, compute the comparable type from the base table
(`t0`, `nil` i.e. `none` when absent) and from the added table (`t1`, whose
absence is the missing-column panic), and compare. -/
def checkColsT (tBase t : Table) : List String → Option TErr
  | [] => none
  | c :: rest =>
    let t0 : Option Ty :=
      match alook tBase.cols c with
      | some s => some s.elemTy
      | none => (alook tBase.consts c).map Val.ty
    match alook t.cols c with
    | some s =>
      if t0 ≠ some s.elemTy then some (.typeMismatch c t0 (some s.elemTy))
      else checkColsT tBase t rest
    | none =>
      match alook t.consts c with
      | some cv =>
        if t0 ≠ some cv.ty then some (.typeMismatch c t0 (some cv.ty))
        else checkColsT tBase t rest
      | none => some (.missingColumn c)

/-- The extra-column check of `groupedTable.AddTable`: only runs when the
count of regular columns differs from the schema size, and only scans the
regular columns. -/
def extraCheck (t : Table) (colNames : List String) : Option TErr :=
  if t.cols.length ≠ colNames.length then
    match t.cols.find? (fun p => decide (p.1 ∉ colNames)) with
    | some p => some (.extraColumn p.1)
    | none => none
  else none

/-- `groupedTable.AddTable` (panics as errors). -/
def GroupedTable.addT (g : GroupedTable) (gid : Nat) (t? : Option Table) :
    Except TErr GroupedTable :=
  match t? with
  | some t =>
    if t.colNames = [] then .ok g
    else
      let ng := g.evict gid
      if ng.groups = [] then
        .ok { ng with tables := ng.tables ++ [(gid, t)], groups := ng.groups ++ [gid],
                      colNames := t.colNames }
      else
        let tBase := (alook ng.tables (ng.groups.headD 0)).getD emptyTable
        match checkColsT tBase t ng.colNames with
        | some e => .error e
        | none =>
          match extraCheck t ng.colNames with
          | some e => .error e
          | none =>
            .ok { ng with tables := ng.tables ++ [(gid, t)], groups := ng.groups ++ [gid] }
  | none =>
    let ng := g.evict gid
    if ng.groups = [] then .ok { ng with colNames := [] }
    else .ok ng

/-- `Grouping`: the interface, implemented by `*Table` and `*groupedTable`. -/
inductive Grouping : Type where
  | table : Table → Grouping
  | grouped : GroupedTable → Grouping
deriving DecidableEq, Repr

/-- `Grouping.Tables`: the ordered group ids. -/
def Grouping.tablesL : Grouping → List Nat
  | .table t => if t.colNames = [] then [] else [rootGID]
  | .grouped g => g.groups

/-- `Grouping.Table`: the table bound to a group id. -/
def Grouping.tableAt : Grouping → Nat → Option Table
  | .table t, gid => if gid = rootGID ∧ ¬t.colNames = [] then some t else none
  | .grouped g, gid => alook g.tables gid

/-- `Grouping.Columns`. -/
def Grouping.columnsG : Grouping → List String
  | .table t => t.colNames
  | .grouped g => g.colNames

/-- `Grouping.AddTable` for both implementations; `Table.AddTable` promotes to
a `groupedTable` via `g.AddTable(RootGroupID, t).AddTable(gid, t2)`. -/
def Grouping.addTable : Grouping → Nat → Option Table → Except TErr Grouping
  | .table t, gid, t2? =>
    match t2? with
    | none => if gid = rootGID then .ok (.table emptyTable) else .ok (.table t)
    | some t2 =>
      if t2.colNames = [] then .ok (.table t)
      else if gid = rootGID then .ok (.table t2)
      else
        match (GroupedTable.mk [] [] []).addT rootGID (some t) with
        | .error e => .error e
        | .ok g1 =>
          match g1.addT gid (some t2) with
          | .error e => .error e
          | .ok g2 => .ok (.grouped g2)
  | .grouped g, gid, t? =>
    match g.addT gid t? with
    | .error e => .error e
    | .ok g2 => .ok (.grouped g2)

end GoGG

namespace GoGG

/-- Which element types Go's natural ordering orders (ints and strings are
ordered; booleans are not).  Modelled from the spec for `generic.Sorter`. -/
def Ty.orderable : Ty → Bool
  | .int => true
  | .str => true
  | .bool => false

/-- Natural strict order on values of one type (the comparison `generic.Sorter`
uses).  Values of different types never occur in one column. -/
def Val.lt : Val → Val → Bool
  | .int a, .int b => decide (a < b)
  | .str a, .str b => decide (a < b)
  | _, _ => false

/-- `sort.IsSorted` over a sequence: no adjacent pair is out of order. -/
def isSortedSeq : List Val → Bool
  | [] => true
  | [_] => true
  | a :: b :: rest => !(Val.lt b a) && isSortedSeq (b :: rest)

/-- The sorter-building loop at the top of `SortBy`'s per-group body: for each
named column, read it (`MustColumn`, memoizing constant expansions into the
table, hence the threaded `Table`), build its order capability
(`generic.Sorter`, modelled from the spec: fails on an unorderable element
type), skip it if `sort.IsSorted`, otherwise keep its value sequence. -/
def sorterLoop (t : Table) : List String → List (List Val) →
    Except TErr (Table × List (List Val))
  | [], acc => .ok (t, acc)
  | c :: rest, acc =>
    match t.column c with
    | (none, _) => .error (.unknownColumn c)
    | (some s, t1) =>
      if s.elemTy.orderable then
        if isSortedSeq s.data then sorterLoop t1 rest acc
        else sorterLoop t1 rest (acc ++ [s.data])
      else .error (.unorderable c s.elemTy)

/-- One key's comparison inside `permSort.Less`. -/
def keyLess (k : List Val) (i j : Nat) : Bool :=
  Val.lt (k.getD i default) (k.getD j default)

/-- `permSort.Less`: try each key in order, the last key is authoritative.
(`SortBy` only sorts with a non-empty key list; the `[]` case is arbitrary.) -/
def permSortLessB : List (List Val) → Nat → Nat → Bool
  | [], _, _ => false
  | [k], i, j => keyLess k i j
  | k :: k2 :: rest, i, j =>
    if keyLess k i j then true
    else if keyLess k j i then false
    else permSortLessB (k2 :: rest) i j

/-- Stable insertion of `x` into a sorted list: `x` goes before the first
element `y` with `le x y` (so before elements tied with `x`, which originate
later in the input — stability). -/
def ordIns (le : Nat → Nat → Bool) (x : Nat) : List Nat → List Nat
  | [] => [x]
  | y :: ys => if le x y then x :: y :: ys else y :: ordIns le x ys

/-- Stable insertion sort.  Modelled from the documented contract of Go's
`sort.Stable` (stable, ascending w.r.t. the comparator), whose output it
matches whenever the comparator is a strict weak order — which holds for
`permSort.Less` over homogeneous orderable columns. -/
def insSort (le : Nat → Nat → Bool) : List Nat → List Nat
  | [] => []
  | x :: xs => ordIns le x (insSort le xs)

/-- The sorted index permutation `SortBy` computes: start from the identity
`[0, …, L-1]` and stable-sort it by `permSort.Less`. -/
def sortPermOf (keys : List (List Val)) (L : Nat) : List Nat :=
  insSort (fun i j => !(permSortLessB keys j i)) (List.range L)

/-- `generic.MultiIndex` (modelled from the spec): the sequence
`seq[perm[0]], seq[perm[1]], …`, with the element type carried over. -/
def multiIndex (s : Slc) (perm : List Nat) : Slc :=
  ⟨s.elemTy, perm.map (fun i => s.data.getD i default)⟩

/-- The column-permuting loop at the bottom of `SortBy`'s per-group body:
rebuild the group by `Add`ing each column of `t` (read through `Table.Column`,
threading the memoization state) permuted by `perm` into a fresh table. -/
def permuteAll (perm : List Nat) : List String → Table → Table → Except TErr Table
  | [], _, nt => .ok nt
  | name :: rest, t, nt =>
    match t.column name with
    | (none, _) => .error (.unknownColumn name)
    | (some s, t1) =>
      match nt.add name (some (multiIndex s perm)) with
      | .ok nt1 => permuteAll perm rest t1 nt1
      | .error e => .error e

/-- `SortBy`'s per-group body: build the sorters, pass the group through when
none survive, otherwise sort the index permutation and permute every column. -/
def sortGroup (t : Table) (cols : List String) : Except TErr Table :=
  match sorterLoop t cols [] with
  | .error e => .error e
  | .ok (t1, keys) =>
    if keys = [] then .ok t1
    else permuteAll (sortPermOf keys t1.len) t1.colNames t1 emptyTable

/-- The index permutation `sortGroup` applies to a group (the identity
permutation in the pass-through case; `[]` on error, unused). -/
def sortGroupPerm (t : Table) (cols : List String) : List Nat :=
  match sorterLoop t cols [] with
  | .error _ => []
  | .ok (t1, keys) =>
    if keys = [] then List.range t1.len else sortPermOf keys t1.len

/-- `SortBy`'s loop over the groups of `g`, accumulating the output Grouping
(which starts as `Grouping(new(Table))`). -/
def sortByLoop (g : Grouping) (cols : List String) : List Nat → Grouping →
    Except TErr Grouping
  | [], out => .ok out
  | gid :: rest, out =>
    match g.tableAt gid with
    | none => .error (.nilGroupTable gid)
    | some t =>
      match sortGroup t cols with
      | .error e => .error e
      | .ok nt =>
        match out.addTable gid (some nt) with
        | .error e => .error e
        | .ok out1 => sortByLoop g cols rest out1

/-- `SortBy`. -/
def sortBy (g : Grouping) (cols : List String) : Except TErr Grouping :=
  sortByLoop g cols g.tablesL (.table emptyTable)

end GoGG

namespace GoGG

/-- A well-formed slice: homogeneous, as every Go slice is by construction. -/
def SlcWF (s : Slc) : Prop := ∀ v ∈ s.data, v.ty = s.elemTy

instance (s : Slc) : Decidable (SlcWF s) := by
  unfold SlcWF; infer_instance

/-- Tables reachable from the empty Table by `Add`, `AddConst` and `Column`
reads (the read is included because it memoizes in place).  `Add` only ever
receives genuine Go slices, hence the homogeneity side condition. -/
inductive Reach : Table → Prop where
  | empty : Reach emptyTable
  | addStep {t t' : Table} {n : String} {d : Option Slc} :
      Reach t → (∀ s, d = some s → SlcWF s) → t.add n d = .ok t' → Reach t'
  | addConstStep {t : Table} {n : String} {v : Val} :
      Reach t → Reach (t.addConst n v)
  | columnStep {t : Table} {n : String} :
      Reach t → Reach (t.column n).2

/-! Concrete instances used by the counterexamples and witnesses. -/

/-- A table with only the constant column `c`. -/
def tCOnly : Table := emptyTable.addConst "c" (.int 5)

/-- `tCOnly` after a `Column "c"` read: the expansion is memoized. -/
def tCMemo : Table := (tCOnly.column "c").2

/-- A two-element int slice. -/
def dx2 : Slc := ⟨.int, [.int 1, .int 2]⟩

/-- `tCOnly` with the regular column `x` added. -/
def tCX : Table := ⟨[("x", dx2)], [("c", .int 5)], ["c", "x"], 2⟩

/-- `tCX` with `x` removed again: only the constant remains, but the row
count stays 2. -/
def tCStale : Table := ⟨[], [("c", .int 5)], ["c"], 2⟩

/-- A one-regular-column table `x = [1, 2]`. -/
def tX2 : Table := ⟨[("x", dx2)], [], ["x"], 2⟩

/-- Sort-bug input: `k1 = [1, 2]` is already sorted, `k2 = [5, 3]` is not. -/
def tK12 : Table :=
  ⟨[("k1", ⟨.int, [.int 1, .int 2]⟩), ("k2", ⟨.int, [.int 5, .int 3]⟩)],
   [], ["k1", "k2"], 2⟩

/-- What `SortBy(·, "k1", "k2")` actually produces from `tK12`. -/
def tK12out : Table :=
  ⟨[("k1", ⟨.int, [.int 2, .int 1]⟩), ("k2", ⟨.int, [.int 3, .int 5]⟩)],
   [], ["k1", "k2"], 2⟩

/-- `x = [1]`. -/
def tX1 : Table := ⟨[("x", ⟨.int, [.int 1]⟩)], [], ["x"], 1⟩

/-- One-group grouping `{1 ↦ x = [1]}`. -/
def gOneX : GroupedTable := ⟨[(1, tX1)], [1], ["x"]⟩

/-- `x = [2]` plus an extra constant column `c` not in the schema. -/
def tX1c : Table := ⟨[("x", ⟨.int, [.int 2]⟩)], [("c", .int 5)], ["x", "c"], 1⟩

/-- `tX2` with the constant `c` appended. -/
def tCX2 : Table := ⟨[("x", dx2)], [("c", .int 5)], ["x", "c"], 2⟩

/-- C1.  SortBy skips every sort column that is individually already sorted.
With `k1 = [1, 2]` sorted and `k2 = [5, 3]` unsorted, the group is sorted by
`k2` alone, producing `k1 = [2, 1]`: the rows are NOT in lexicographic
`(k1, k2)` order (which would leave the table unchanged), contradicting both
the claim and `SortBy`'s own doc comment ("sorts by the tuple of the
columns"). -/
theorem C1_sortBy_skips_sorted_key_column :
    sortBy (.table tK12) ["k1", "k2"] = .ok (.table tK12out) ∧
    alook tK12out.cols "k1" = some ⟨.int, [.int 2, .int 1]⟩ ∧
    isSortedSeq [Val.int 2, Val.int 1] = false := by
  decide

/-- C2 counterexample.  Interposing a `Column "c"` read of the constant
column of `tCOnly` changes the outcome of a subsequent `Add`: without the
read, adding `x = [1, 2]` succeeds (first regular column defines the row
count); after the read, the memoized expansion counts as a regular column of
length 0 and the same `Add` fails with a length mismatch. -/
theorem C2_memoization_changes_add_outcome :
    (tCOnly.column "c").1 = some ⟨.int, []⟩ ∧
    tCOnly.add "x" (some dx2) = .ok tCX ∧
    tCMemo.add "x" (some dx2) = .error (.lengthMismatch "x" 2 0) := by
  decide

/-- C3 counterexample.  Adding to schema `["x"]` a table that supplies `x`
with the right type but also an extra constant column `c` succeeds — the
extra-column check never looks at constant columns — so the groups of the
result do not share one column-name set, contradicting the claim that any
extra column fails with an extra-column error. -/
theorem C3_extra_constant_column_admitted :
    (∃ g2, gOneX.addT 2 (some tX1c) = .ok g2 ∧
      (alook g2.tables 1).map Table.colNames = some ["x"] ∧
      (alook g2.tables 2).map Table.colNames = some ["x", "c"]) ∧
    "c" ∈ tX1c.colNames ∧ "c" ∉ gOneX.colNames := by
  refine ⟨⟨⟨[(1, tX1), (2, tX1c)], [1, 2], ["x"]⟩, ?_, ?_, ?_⟩, ?_, ?_⟩ <;> decide

/-- C5 counterexample.  The table reached from the empty table by
`AddConst "c" 5` followed by a `Column "c"` read stores the name `c` in both
the regular-column map (the memoized expansion) and the constant-column map,
contradicting "stored as exactly one of a regular column or a constant
column, never both". -/
theorem C5_memoized_name_in_both_maps :
    Reach tCMemo ∧
    (alook tCMemo.cols "c").isSome = true ∧
    (alook tCMemo.consts "c").isSome = true := by
  refine ⟨Reach.columnStep (Reach.addConstStep Reach.empty), by decide, by decide⟩

/-- C6 counterexample: two failure modes of the unconditional round trip.
(a) For the constant-only table `tCOnly` (row count 0), `Add "x" [1,2]`
followed by `Add "x" nil` does not restore the original: the remaining table
keeps the row count 2 that the removed regular column established,
observably different from `tCOnly` (`Len` is 2 vs 0, and the expansion of
`c` has 2 elements vs 0), and `x` was not `tCOnly`'s only column, so the
claim's empty-table exception does not apply.  (b) For `tK12`, whose columns
are `k1` and `k2`, round-tripping the EXISTING column `k1` deletes it: the
result holds only `k2`, so its schema differs from `tK12`'s — the claim
asserted observable equality here, since `k1` was not the only column. -/
theorem C6_roundtrip_changes_const_only_table :
    (tCOnly.add "x" (some dx2) = .ok tCX ∧
     tCX.add "x" none = .ok tCStale ∧
     tCStale.len = 2 ∧ tCOnly.len = 0 ∧
     (tCStale.column "c").1 = some ⟨.int, [.int 5, .int 5]⟩ ∧
     (tCOnly.column "c").1 = some ⟨.int, []⟩) ∧
    (tK12.add "k1" (some ⟨.int, [.int 7, .int 8]⟩) =
       .ok ⟨[("k2", ⟨.int, [.int 5, .int 3]⟩), ("k1", ⟨.int, [.int 7, .int 8]⟩)],
            [], ["k2", "k1"], 2⟩ ∧
     (Table.mk [("k2", ⟨.int, [.int 5, .int 3]⟩), ("k1", ⟨.int, [.int 7, .int 8]⟩)]
        [] ["k2", "k1"] 2).add "k1" none =
       .ok ⟨[("k2", ⟨.int, [.int 5, .int 3]⟩)], [], ["k2"], 2⟩ ∧
     (Table.mk [("k2", ⟨.int, [.int 5, .int 3]⟩)] [] ["k2"] 2).colNames ≠
       tK12.colNames) := by
  decide

/-- C7 counterexample.  `tX2` has one regular column (`x`, length 2), yet
adding `x` again with 3 elements succeeds — the emptiness test runs after
evicting the column being added, so the claimed "fails iff the length
differs from the existing row count" is wrong for a receiver whose only
regular column is the one being replaced. -/
theorem C7_replacing_only_regular_column_ignores_length :
    tX2.cols ≠ [] ∧ (3 : Nat) ≠ tX2.len ∧
    tX2.add "x" (some ⟨.int, [.int 1, .int 2, .int 3]⟩) =
      .ok ⟨[("x", ⟨.int, [.int 1, .int 2, .int 3]⟩)], [], ["x"], 3⟩ := by
  decide

/-- C8 counterexample.  `tCStale` is reachable (add `x = [1,2]`, add the
constant `c`, remove `x`), is non-empty, has only constant columns, and its
`Len` is 2, not the claimed 0. -/
theorem C8_const_only_len_not_zero :
    Reach tCStale ∧
    tCStale.cols = [] ∧ tCStale.colNames ≠ [] ∧ tCStale.len = 2 := by
  refine ⟨?_, by decide, by decide, by decide⟩
  have h1 : emptyTable.add "x" (some dx2) = .ok tX2 := by decide
  have h2 : tX2.addConst "c" (.int 5) = tCX2 := by decide
  have h3 : tCX2.add "x" none = .ok tCStale := by decide
  exact Reach.addStep
    (h2 ▸ Reach.addConstStep (Reach.addStep Reach.empty (fun s hs => by cases hs; decide) h1))
    (fun s hs => by cases hs) h3

end GoGG

namespace GoGG

section AlookLemmas

variable {κ α : Type} [DecidableEq κ]

theorem alook_eq_some_mem {l : List (κ × α)} {k : κ} {v : α}
    (h : alook l k = some v) : (k, v) ∈ l := by
  induction l with
  | nil => simp [alook] at h
  | cons p rest ih =>
    obtain ⟨k2, v2⟩ := p
    by_cases hk : k2 = k
    · subst hk
      simp [alook] at h
      simp [h]
    · simp [alook, hk] at h
      exact List.mem_cons_of_mem _ (ih h)

theorem alook_eq_none_iff {l : List (κ × α)} {k : κ} :
    alook l k = none ↔ ∀ p ∈ l, p.1 ≠ k := by
  induction l with
  | nil => simp [alook]
  | cons p rest ih =>
    obtain ⟨k2, v2⟩ := p
    by_cases hk : k2 = k
    · subst hk; simp [alook]
    · simp [alook, hk, ih]

theorem alook_append (l1 l2 : List (κ × α)) (k : κ) :
    alook (l1 ++ l2) k =
      match alook l1 k with
      | some v => some v
      | none => alook l2 k := by
  induction l1 with
  | nil => simp [alook]
  | cons p rest ih =>
    obtain ⟨k2, v2⟩ := p
    by_cases hk : k2 = k
    · subst hk; simp [alook]
    · simp [alook, hk, ih]

theorem alook_of_mem_nodup {l : List (κ × α)} {k : κ} {v : α}
    (hn : (l.map Prod.fst).Nodup) (hm : (k, v) ∈ l) : alook l k = some v := by
  induction l with
  | nil => cases hm
  | cons p rest ih =>
    obtain ⟨k2, v2⟩ := p
    simp only [List.map_cons, List.nodup_cons] at hn
    rcases List.mem_cons.mp hm with h | h
    · cases h; simp [alook]
    · have hk : k2 ≠ k := by
        intro he; subst he
        exact hn.1 (List.mem_map.mpr ⟨(k2, v), h, rfl⟩)
      simp [alook, hk]
      exact ih hn.2 h

theorem alook_keyed (names : List κ) (f : κ → Option α) (k : κ) :
    alook (names.filterMap (fun n => (f n).map (fun c => (n, c)))) k =
      if k ∈ names then f k else none := by
  induction names with
  | nil => simp [alook]
  | cons n rest ih =>
    by_cases hk : n = k
    · subst hk
      cases hf : f n with
      | none => simp [List.filterMap_cons, hf, ih]
      | some c => simp [List.filterMap_cons, hf, alook]
    · have hkn : ¬k = n := fun h => hk h.symm
      cases hf : f n with
      | none =>
        simp only [List.filterMap_cons, hf, Option.map_none']
        rw [ih]
        simp [List.mem_cons, hkn]
      | some c =>
        simp only [List.filterMap_cons, hf, Option.map_some']
        simp only [alook, hk, if_false]
        rw [ih]
        simp [List.mem_cons, hkn]

omit [DecidableEq κ] in
theorem keys_filterMap_sublist (names : List κ) (f : κ → Option α) :
    ((names.filterMap (fun n => (f n).map (fun c => (n, c)))).map Prod.fst).Sublist names := by
  induction names with
  | nil => simp
  | cons n rest ih =>
    cases hf : f n with
    | none =>
      simp only [List.filterMap_cons, hf, Option.map_none']
      exact ih.cons n
    | some c =>
      simp only [List.filterMap_cons, hf, Option.map_some', List.map_cons]
      exact ih.cons₂ n

omit [DecidableEq κ] in
theorem mem_filterMap_keyed {names : List κ} {f : κ → Option α} {p : κ × α} :
    p ∈ names.filterMap (fun n => (f n).map (fun c => (n, c))) ↔
      p.1 ∈ names ∧ f p.1 = some p.2 := by
  constructor
  · intro h
    obtain ⟨n, hn, he⟩ := List.mem_filterMap.mp h
    cases hf : f n with
    | none => rw [hf] at he; cases he
    | some c =>
      rw [hf] at he
      simp only [Option.map_some', Option.some.injEq] at he
      cases he
      exact ⟨hn, hf⟩
  · rintro ⟨h1, h2⟩
    exact List.mem_filterMap.mpr ⟨p.1, h1, by rw [h2]; rfl⟩

end AlookLemmas

/-- The structural invariant every reachable Table satisfies: unique column
names, both maps keyed within the name list, every name covered, regular
columns homogeneous and of the table's length, a cached expansion (the only
way a name lands in both maps) coherent with its constant, and the empty name
list only on the canonical empty table. -/
structure Table.WF (t : Table) : Prop where
  nodupNames : t.colNames.Nodup
  colsSub : ∀ p ∈ t.cols, p.1 ∈ t.colNames
  constsSub : ∀ p ∈ t.consts, p.1 ∈ t.colNames
  cover : ∀ n ∈ t.colNames, (alook t.cols n).isSome ∨ (alook t.consts n).isSome
  nodupCols : (t.cols.map Prod.fst).Nodup
  nodupConsts : (t.consts.map Prod.fst).Nodup
  colsLen : ∀ p ∈ t.cols, p.2.data.length = t.len
  colsTy : ∀ p ∈ t.cols, SlcWF p.2
  cache : ∀ p ∈ t.cols, ∀ q ∈ t.consts, p.1 = q.1 →
    p.2 = ⟨q.2.ty, List.replicate t.len q.2⟩
  emptyCanon : t.colNames = [] → t = emptyTable

theorem emptyTable_wf : emptyTable.WF := by
  constructor <;> simp [emptyTable]

end GoGG

namespace GoGG

theorem alook_none_of_keys {α : Type} {l : List (String × α)} {names : List String} {k : String}
    (hsub : ∀ p ∈ l, p.1 ∈ names) (hk : k ∉ names) : alook l k = none := by
  cases hl : alook l k with
  | none => rfl
  | some v => exact absurd (hsub _ (alook_eq_some_mem hl)) hk

theorem cloneSans_colNames (t : Table) (name : String) :
    (t.cloneSans name).colNames = t.colNames.filter (fun n => n ≠ name) := rfl

theorem cloneSans_len (t : Table) (name : String) : (t.cloneSans name).len = t.len := rfl

theorem cloneSans_cols_alook (t : Table) (name k : String) :
    alook (t.cloneSans name).cols k =
      if k ∈ t.colNames.filter (fun n => n ≠ name) then alook t.cols k else none :=
  alook_keyed _ _ _

theorem cloneSans_consts_alook (t : Table) (name k : String) :
    alook (t.cloneSans name).consts k =
      if k ∈ t.colNames.filter (fun n => n ≠ name) then alook t.consts k else none :=
  alook_keyed _ _ _

theorem cloneSans_cols_mem {t : Table} {name : String} {p : String × Slc} :
    p ∈ (t.cloneSans name).cols ↔
      p.1 ∈ t.colNames ∧ p.1 ≠ name ∧ alook t.cols p.1 = some p.2 := by
  show p ∈ (t.colNames.filter (fun n => n ≠ name)).filterMap _ ↔ _
  rw [mem_filterMap_keyed, List.mem_filter]
  simp [and_assoc]

theorem cloneSans_consts_mem {t : Table} {name : String} {q : String × Val} :
    q ∈ (t.cloneSans name).consts ↔
      q.1 ∈ t.colNames ∧ q.1 ≠ name ∧ alook t.consts q.1 = some q.2 := by
  show q ∈ (t.colNames.filter (fun n => n ≠ name)).filterMap _ ↔ _
  rw [mem_filterMap_keyed, List.mem_filter]
  simp [and_assoc]

theorem cloneSans_cols_keys_sublist (t : Table) (name : String) :
    ((t.cloneSans name).cols.map Prod.fst).Sublist
      (t.colNames.filter (fun n => n ≠ name)) :=
  keys_filterMap_sublist _ _

theorem cloneSans_consts_keys_sublist (t : Table) (name : String) :
    ((t.cloneSans name).consts.map Prod.fst).Sublist
      (t.colNames.filter (fun n => n ≠ name)) :=
  keys_filterMap_sublist _ _

theorem not_mem_filter_self (names : List String) (name : String) :
    name ∉ names.filter (fun n => n ≠ name) := by
  intro h
  have h2 := (List.mem_filter.mp h).2
  simp at h2

/-- Under the invariant, removing `name` leaves every other regular-column
lookup unchanged. -/
theorem Table.WF.cloneSans_cols {t : Table} (h : t.WF) (name k : String) :
    alook (t.cloneSans name).cols k = if k = name then none else alook t.cols k := by
  rw [cloneSans_cols_alook]
  by_cases hk : k = name
  · subst hk
    simp [not_mem_filter_self]
  · simp only [hk, if_false]
    by_cases hmem : k ∈ t.colNames
    · simp [List.mem_filter, hmem, hk]
    · rw [if_neg (fun hc => hmem (List.mem_filter.mp hc).1)]
      exact (alook_none_of_keys h.colsSub hmem).symm

theorem Table.WF.cloneSans_consts {t : Table} (h : t.WF) (name k : String) :
    alook (t.cloneSans name).consts k = if k = name then none else alook t.consts k := by
  rw [cloneSans_consts_alook]
  by_cases hk : k = name
  · subst hk
    simp [not_mem_filter_self]
  · simp only [hk, if_false]
    by_cases hmem : k ∈ t.colNames
    · simp [List.mem_filter, hmem, hk]
    · rw [if_neg (fun hc => hmem (List.mem_filter.mp hc).1)]
      exact (alook_none_of_keys h.constsSub hmem).symm

end GoGG

namespace GoGG

theorem cloneSans_cols_mem_orig {t : Table} {name : String} {p : String × Slc}
    (hp : p ∈ (t.cloneSans name).cols) : p ∈ t.cols := by
  obtain ⟨-, -, h3⟩ := cloneSans_cols_mem.mp hp
  simpa using alook_eq_some_mem h3

theorem cloneSans_consts_mem_orig {t : Table} {name : String} {q : String × Val}
    (hq : q ∈ (t.cloneSans name).consts) : q ∈ t.consts := by
  obtain ⟨-, -, h3⟩ := cloneSans_consts_mem.mp hq
  simpa using alook_eq_some_mem h3

theorem filter_ne_nil_of_mem {names : List String} {name : String} (hn : names.Nodup)
    (hm : name ∈ names) (hl : names.length ≠ 1) :
    names.filter (fun x => x ≠ name) ≠ [] := by
  intro hnil
  have hall : ∀ a ∈ names, a = name := by
    intro a ha
    by_contra hne
    have hmem : a ∈ names.filter (fun x => x ≠ name) :=
      List.mem_filter.mpr ⟨ha, by simpa using hne⟩
    rw [hnil] at hmem
    cases hmem
  cases names with
  | nil => cases hm
  | cons a rest =>
    have ha : a = name := hall a (by simp)
    cases rest with
    | nil => exact hl (by simp)
    | cons b rest2 =>
      have hb : b = name := hall b (by simp)
      subst ha
      subst hb
      simp at hn

/-- `cloneSans` preserves the invariant as long as the result keeps at least
one column (the only way a `cloneSans` result escapes the code). -/
theorem cloneSans_wf {t : Table} (h : t.WF) (name : String)
    (hne : (t.cloneSans name).colNames ≠ []) : (t.cloneSans name).WF := by
  have hfil : (t.colNames.filter (fun x => x ≠ name)).Nodup := h.nodupNames.filter _
  constructor
  case nodupNames => exact hfil
  case colsSub =>
    intro p hp
    obtain ⟨h1, h2, -⟩ := cloneSans_cols_mem.mp hp
    exact List.mem_filter.mpr ⟨h1, by simpa using h2⟩
  case constsSub =>
    intro q hq
    obtain ⟨h1, h2, -⟩ := cloneSans_consts_mem.mp hq
    exact List.mem_filter.mpr ⟨h1, by simpa using h2⟩
  case cover =>
    intro k hk
    have hk1 : k ∈ t.colNames := (List.mem_filter.mp hk).1
    have hk2 : ¬k = name := by simpa using (List.mem_filter.mp hk).2
    rw [h.cloneSans_cols, h.cloneSans_consts, if_neg hk2, if_neg hk2]
    exact h.cover k hk1
  case nodupCols => exact (cloneSans_cols_keys_sublist t name).nodup hfil
  case nodupConsts => exact (cloneSans_consts_keys_sublist t name).nodup hfil
  case colsLen =>
    intro p hp
    exact h.colsLen p (cloneSans_cols_mem_orig hp)
  case colsTy =>
    intro p hp
    exact h.colsTy p (cloneSans_cols_mem_orig hp)
  case cache =>
    intro p hp q hq hpq
    exact h.cache p (cloneSans_cols_mem_orig hp) q (cloneSans_consts_mem_orig hq) hpq
  case emptyCanon =>
    intro hc
    exact absurd hc hne

theorem addConst_cols (t : Table) (n : String) (v : Val) :
    (t.addConst n v).cols = (t.cloneSans n).cols := rfl

theorem addConst_consts (t : Table) (n : String) (v : Val) :
    (t.addConst n v).consts = (t.cloneSans n).consts ++ [(n, v)] := rfl

theorem addConst_colNames (t : Table) (n : String) (v : Val) :
    (t.addConst n v).colNames = t.colNames.filter (fun x => x ≠ n) ++ [n] := rfl

theorem addConst_len (t : Table) (n : String) (v : Val) :
    (t.addConst n v).len = t.len := rfl

theorem addConst_wf {t : Table} (h : t.WF) (n : String) (v : Val) :
    (t.addConst n v).WF := by
  have hfil : (t.colNames.filter (fun x => x ≠ n)).Nodup := h.nodupNames.filter _
  have hnm : n ∉ t.colNames.filter (fun x => x ≠ n) := not_mem_filter_self _ _
  constructor
  case nodupNames =>
    rw [addConst_colNames]
    simp only [List.nodup_append, List.nodup_cons, List.not_mem_nil, not_false_iff,
      List.nodup_nil, and_true, true_and]
    exact ⟨hfil, by simp [List.disjoint_singleton, hnm]⟩
  case colsSub =>
    intro p hp
    rw [addConst_cols] at hp
    obtain ⟨h1, h2, -⟩ := cloneSans_cols_mem.mp hp
    rw [addConst_colNames]
    exact List.mem_append_left _ (List.mem_filter.mpr ⟨h1, by simpa using h2⟩)
  case constsSub =>
    intro q hq
    rw [addConst_consts] at hq
    rw [addConst_colNames]
    rcases List.mem_append.mp hq with hq | hq
    · obtain ⟨h1, h2, -⟩ := cloneSans_consts_mem.mp hq
      exact List.mem_append_left _ (List.mem_filter.mpr ⟨h1, by simpa using h2⟩)
    · simp only [List.mem_singleton] at hq
      cases hq
      exact List.mem_append_right _ (by simp)
  case cover =>
    intro k hk
    rw [addConst_colNames] at hk
    show (alook (t.addConst n v).cols k).isSome ∨ (alook (t.addConst n v).consts k).isSome
    rw [addConst_cols, addConst_consts, alook_append]
    rcases List.mem_append.mp hk with hk | hk
    · have hk1 : k ∈ t.colNames := (List.mem_filter.mp hk).1
      have hk2 : ¬k = n := by simpa using (List.mem_filter.mp hk).2
      rw [h.cloneSans_cols, h.cloneSans_consts, if_neg hk2, if_neg hk2]
      rcases h.cover k hk1 with hc | hc
      · exact Or.inl hc
      · right
        rw [Option.isSome_iff_exists] at hc
        obtain ⟨v2, hv2⟩ := hc
        rw [hv2]
        exact rfl
    · simp only [List.mem_singleton] at hk
      subst hk
      right
      rw [h.cloneSans_consts, if_pos rfl]
      simp [alook]
  case nodupCols =>
    rw [addConst_cols]
    exact (cloneSans_cols_keys_sublist t n).nodup hfil
  case nodupConsts =>
    rw [addConst_consts, List.map_append]
    have hsub := cloneSans_consts_keys_sublist t n
    simp only [List.nodup_append, List.nodup_cons, List.not_mem_nil, not_false_iff,
      List.nodup_nil, and_true, true_and, List.map_cons, List.map_nil]
    refine ⟨hsub.nodup hfil, ?_⟩
    intro a ha
    simp only [List.mem_singleton]
    intro he
    subst he
    exact hnm (hsub.mem ha)
  case colsLen =>
    intro p hp
    rw [addConst_cols] at hp
    rw [addConst_len]
    exact h.colsLen p (cloneSans_cols_mem_orig hp)
  case colsTy =>
    intro p hp
    rw [addConst_cols] at hp
    exact h.colsTy p (cloneSans_cols_mem_orig hp)
  case cache =>
    intro p hp q hq hpq
    rw [addConst_cols] at hp
    rw [addConst_consts] at hq
    rcases List.mem_append.mp hq with hq | hq
    · rw [addConst_len]
      exact h.cache p (cloneSans_cols_mem_orig hp) q (cloneSans_consts_mem_orig hq) hpq
    · simp only [List.mem_singleton] at hq
      subst hq
      obtain ⟨-, h2, -⟩ := cloneSans_cols_mem.mp hp
      exact absurd hpq h2
  case emptyCanon =>
    intro hc
    rw [addConst_colNames] at hc
    cases (List.append_ne_nil_of_right_ne_nil _ (by simp : [n] ≠ ([] : List String))) hc

end GoGG

namespace GoGG

theorem add_none_cases (t : Table) (name : String) :
    t.add name none = .ok t ∨ t.add name none = .ok emptyTable ∨
      (t.add name none = .ok (t.cloneSans name) ∧
        ¬((alook t.cols name).isNone ∧ (alook t.consts name).isNone) ∧
        t.colNames.length ≠ 1) := by
  unfold Table.add
  by_cases hb : (alook t.cols name).isNone ∧ (alook t.consts name).isNone
  · left
    rw [if_pos hb]
  · by_cases hl : t.colNames.length = 1
    · right; left
      rw [if_neg hb, if_pos hl]
    · right; right
      rw [if_neg hb, if_neg hl]
      exact ⟨rfl, hb, hl⟩

theorem add_wf {t t' : Table} {n : String} {d : Option Slc}
    (h : t.WF) (hd : ∀ s, d = some s → SlcWF s) (ha : t.add n d = .ok t') : t'.WF := by
  cases d with
  | none =>
    rcases add_none_cases t n with hc | hc | ⟨hc, hb, hl⟩
    · rw [hc] at ha
      cases ha
      exact h
    · rw [hc] at ha
      cases ha
      exact emptyTable_wf
    · rw [hc] at ha
      cases ha
      refine cloneSans_wf h n ?_
      have hmem : n ∈ t.colNames := by
        rcases not_and_or.mp hb with hb | hb
        · cases hv2 : alook t.cols n with
          | none => exact absurd (by rw [hv2]; rfl) hb
          | some v2 => exact h.colsSub _ (alook_eq_some_mem hv2)
        · cases hv2 : alook t.consts n with
          | none => exact absurd (by rw [hv2]; rfl) hb
          | some v2 => exact h.constsSub _ (alook_eq_some_mem hv2)
      exact filter_ne_nil_of_mem h.nodupNames hmem hl
  | some d =>
    have hwd : SlcWF d := hd d rfl
    have hfil : (t.colNames.filter (fun x => x ≠ n)).Nodup := h.nodupNames.filter _
    have hnm : n ∉ t.colNames.filter (fun x => x ≠ n) := not_mem_filter_self _ _
    unfold Table.add at ha
    simp only at ha
    by_cases he : (t.cloneSans n).cols.isEmpty
    · rw [if_pos he] at ha
      cases ha
      have hceq : (t.cloneSans n).cols = [] := List.isEmpty_iff.mp he
      refine ⟨?_, ?_, ?_, ?_, ?_, ?_, ?_, ?_, ?_, ?_⟩
      ·
        show (t.colNames.filter (fun x => x ≠ n) ++ [n]).Nodup
        simp only [List.nodup_append, List.nodup_cons, List.not_mem_nil, not_false_iff,
          List.nodup_nil, and_true, true_and]
        exact ⟨hfil, by simp [List.disjoint_singleton, hnm]⟩
      ·
        intro p hp
        rw [hceq] at hp
        simp only [List.nil_append, List.mem_singleton] at hp
        subst hp
        exact List.mem_append_right _ (by simp)
      ·
        intro q hq
        obtain ⟨h1, h2, -⟩ := cloneSans_consts_mem.mp hq
        exact List.mem_append_left _ (List.mem_filter.mpr ⟨h1, by simpa using h2⟩)
      ·
        intro k hk
        rcases List.mem_append.mp hk with hk | hk
        · have hk1 : k ∈ t.colNames := (List.mem_filter.mp hk).1
          have hk2 : ¬k = n := by simpa using (List.mem_filter.mp hk).2
          right
          show (alook (t.cloneSans n).consts k).isSome
          rw [h.cloneSans_consts, if_neg hk2]
          rcases h.cover k hk1 with hc | hc
          · exfalso
            have : alook (t.cloneSans n).cols k = alook t.cols k := by
              rw [h.cloneSans_cols, if_neg hk2]
            rw [hceq] at this
            rw [← this] at hc
            simp [alook] at hc
          · exact hc
        · simp only [List.mem_singleton] at hk
          subst hk
          left
          rw [hceq]
          simp [alook]
      ·
        rw [hceq]
        simp
      · exact (cloneSans_consts_keys_sublist t n).nodup hfil
      ·
        intro p hp
        rw [hceq] at hp
        simp only [List.nil_append, List.mem_singleton] at hp
        subst hp
        rfl
      ·
        intro p hp
        rw [hceq] at hp
        simp only [List.nil_append, List.mem_singleton] at hp
        subst hp
        exact hwd
      ·
        intro p hp q hq hpq
        rw [hceq] at hp
        simp only [List.nil_append, List.mem_singleton] at hp
        subst hp
        obtain ⟨-, h2, -⟩ := cloneSans_consts_mem.mp hq
        exact absurd hpq.symm h2
      ·
        intro hc
        cases (List.append_ne_nil_of_right_ne_nil _ (by simp : [n] ≠ ([] : List String))) hc
    · rw [if_neg he] at ha
      by_cases hlen : (t.cloneSans n).len ≠ d.data.length
      · rw [if_pos hlen] at ha
        cases ha
      · rw [if_neg hlen] at ha
        cases ha
        rw [not_not] at hlen
        have hlen2 : d.data.length = t.len := by
          rw [← hlen]
          rfl
        refine ⟨?_, ?_, ?_, ?_, ?_, ?_, ?_, ?_, ?_, ?_⟩
        ·
          show (t.colNames.filter (fun x => x ≠ n) ++ [n]).Nodup
          simp only [List.nodup_append, List.nodup_cons, List.not_mem_nil, not_false_iff,
            List.nodup_nil, and_true, true_and]
          exact ⟨hfil, by simp [List.disjoint_singleton, hnm]⟩
        ·
          intro p hp
          rcases List.mem_append.mp hp with hp | hp
          · obtain ⟨h1, h2, -⟩ := cloneSans_cols_mem.mp hp
            exact List.mem_append_left _ (List.mem_filter.mpr ⟨h1, by simpa using h2⟩)
          · simp only [List.mem_singleton] at hp
            subst hp
            exact List.mem_append_right _ (by simp)
        ·
          intro q hq
          obtain ⟨h1, h2, -⟩ := cloneSans_consts_mem.mp hq
          exact List.mem_append_left _ (List.mem_filter.mpr ⟨h1, by simpa using h2⟩)
        ·
          intro k hk
          rcases List.mem_append.mp hk with hk | hk
          · have hk1 : k ∈ t.colNames := (List.mem_filter.mp hk).1
            have hk2 : ¬k = n := by simpa using (List.mem_filter.mp hk).2
            rcases h.cover k hk1 with hc | hc
            · left
              show (alook ((t.cloneSans n).cols ++ [(n, d)]) k).isSome
              rw [alook_append]
              rw [Option.isSome_iff_exists] at hc
              obtain ⟨v2, hv2⟩ := hc
              have : alook (t.cloneSans n).cols k = some v2 := by
                rw [h.cloneSans_cols, if_neg hk2]
                exact hv2
              rw [this]
              rfl
            · right
              show (alook (t.cloneSans n).consts k).isSome
              rw [h.cloneSans_consts, if_neg hk2]
              exact hc
          · simp only [List.mem_singleton] at hk
            left
            show (alook ((t.cloneSans n).cols ++ [(n, d)]) k).isSome
            rw [alook_append]
            have hnone : alook (t.cloneSans n).cols k = none := by
              rw [h.cloneSans_cols, if_pos hk]
            rw [hnone, hk]
            simp [alook]
        ·
          rw [List.map_append]
          have hsub := cloneSans_cols_keys_sublist t n
          simp only [List.nodup_append, List.nodup_cons, List.not_mem_nil, not_false_iff,
            List.nodup_nil, and_true, true_and, List.map_cons, List.map_nil]
          refine ⟨hsub.nodup hfil, ?_⟩
          intro a ha2
          simp only [List.mem_singleton]
          intro he2
          subst he2
          exact hnm (hsub.mem ha2)
        · exact (cloneSans_consts_keys_sublist t n).nodup hfil
        ·
          intro p hp
          rcases List.mem_append.mp hp with hp | hp
          · exact h.colsLen p (cloneSans_cols_mem_orig hp)
          · simp only [List.mem_singleton] at hp
            subst hp
            exact hlen2
        ·
          intro p hp
          rcases List.mem_append.mp hp with hp | hp
          · exact h.colsTy p (cloneSans_cols_mem_orig hp)
          · simp only [List.mem_singleton] at hp
            subst hp
            exact hwd
        ·
          intro p hp q hq hpq
          rcases List.mem_append.mp hp with hp | hp
          · exact h.cache p (cloneSans_cols_mem_orig hp) q (cloneSans_consts_mem_orig hq) hpq
          · simp only [List.mem_singleton] at hp
            subst hp
            obtain ⟨-, h2, -⟩ := cloneSans_consts_mem.mp hq
            exact absurd hpq.symm h2
        ·
          intro hc
          cases (List.append_ne_nil_of_right_ne_nil _ (by simp : [n] ≠ ([] : List String))) hc

end GoGG

namespace GoGG

/-- The three shapes a `Column` read can take. -/
theorem column_cases (t : Table) (n : String) :
    (∃ c, alook t.cols n = some c ∧ t.column n = (some c, t)) ∨
    (alook t.cols n = none ∧ ∃ cv, alook t.consts n = some cv ∧
      t.column n = (some ⟨cv.ty, List.replicate t.len cv⟩,
        { t with cols := t.cols ++ [(n, ⟨cv.ty, List.replicate t.len cv⟩)] })) ∨
    (alook t.cols n = none ∧ alook t.consts n = none ∧ t.column n = (none, t)) := by
  unfold Table.column
  cases hc : alook t.cols n with
  | some c => exact Or.inl ⟨c, rfl, rfl⟩
  | none =>
    cases hv : alook t.consts n with
    | some cv => exact Or.inr (Or.inl ⟨rfl, cv, rfl, rfl⟩)
    | none => exact Or.inr (Or.inr ⟨rfl, rfl, rfl⟩)

theorem column_wf {t : Table} (h : t.WF) (n : String) : ((t.column n).2).WF := by
  rcases column_cases t n with ⟨c, -, he⟩ | ⟨hc, cv, hv, he⟩ | ⟨-, -, he⟩
  · rw [he]
    exact h
  · rw [he]
    have hnotk : ∀ p ∈ t.cols, p.1 ≠ n := alook_eq_none_iff.mp hc
    have hnc : n ∈ t.colNames := h.constsSub _ (alook_eq_some_mem hv)
    refine ⟨?_, ?_, ?_, ?_, ?_, ?_, ?_, ?_, ?_, ?_⟩
    · exact h.nodupNames
    · intro p hp
      rcases List.mem_append.mp hp with hp | hp
      · exact h.colsSub p hp
      · simp only [List.mem_singleton] at hp
        subst hp
        exact hnc
    · exact h.constsSub
    · intro k hk
      rcases h.cover k hk with hco | hco
      · left
        show (alook (t.cols ++ _) k).isSome
        rw [alook_append]
        cases hv2 : alook t.cols k with
        | none => rw [hv2] at hco; simp at hco
        | some v2 => rfl
      · exact Or.inr hco
    · rw [List.map_append]
      simp only [List.nodup_append, List.map_cons, List.map_nil, List.nodup_cons,
        List.not_mem_nil, not_false_iff, List.nodup_nil, and_true, true_and]
      refine ⟨h.nodupCols, ?_⟩
      intro a ha
      simp only [List.mem_singleton]
      obtain ⟨p, hp, hpa⟩ := List.mem_map.mp ha
      intro he2
      subst he2
      exact hnotk p hp hpa
    · exact h.nodupConsts
    · intro p hp
      rcases List.mem_append.mp hp with hp | hp
      · exact h.colsLen p hp
      · simp only [List.mem_singleton] at hp
        subst hp
        simp
    · intro p hp
      rcases List.mem_append.mp hp with hp | hp
      · exact h.colsTy p hp
      · simp only [List.mem_singleton] at hp
        subst hp
        intro v hvm
        simp only [List.eq_of_mem_replicate hvm]
    · intro p hp q hq hpq
      rcases List.mem_append.mp hp with hp | hp
      · exact h.cache p hp q hq hpq
      · simp only [List.mem_singleton] at hp
        subst hp
        have hq2 : alook t.consts q.1 = some q.2 := alook_of_mem_nodup h.nodupConsts (by simpa)
        rw [← hpq] at hq2
        rw [hv] at hq2
        cases hq2
        rfl
    · intro hcn
      have := h.emptyCanon hcn
      rw [this] at hv
      cases hv
  · rw [he]
    exact h

theorem reach_wf {t : Table} (h : Reach t) : t.WF := by
  induction h with
  | empty => exact emptyTable_wf
  | addStep hr hd ha ih => exact add_wf ih hd ha
  | addConstStep hr ih => exact addConst_wf ih _ _
  | columnStep hr ih => exact column_wf ih _

end GoGG

namespace GoGG

/-- The value a `Column` read returns, as a function of the two maps and the
length. -/
theorem column_fst (t : Table) (m : String) :
    (t.column m).1 =
      match alook t.cols m with
      | some c => some c
      | none => (alook t.consts m).map (fun cv => ⟨cv.ty, List.replicate t.len cv⟩) := by
  unfold Table.column
  cases alook t.cols m <;> cases alook t.consts m <;> rfl

theorem tCOnly_reach : Reach tCOnly := Reach.addConstStep Reach.empty

theorem tCMemo_reach : Reach tCMemo := Reach.columnStep tCOnly_reach

/-- A `Column` read leaves the length, column names, constant map and all
`Column` results unchanged. -/
theorem memo_reads_eq (t : Table) (n : String) :
    (t.column n).2.len = t.len ∧
    (t.column n).2.colNames = t.colNames ∧
    (t.column n).2.consts = t.consts ∧
    (∀ m, ((t.column n).2.column m).1 = (t.column m).1) := by
  rcases column_cases t n with ⟨c, -, he⟩ | ⟨hc, cv, hv, he⟩ | ⟨-, -, he⟩
  · rw [he]
    exact ⟨rfl, rfl, rfl, fun m => rfl⟩
  · rw [he]
    refine ⟨rfl, rfl, rfl, ?_⟩
    intro m
    rw [column_fst, column_fst]
    show (match alook (t.cols ++ [(n, ⟨cv.ty, List.replicate t.len cv⟩)]) m with
          | some c => some c
          | none => (alook t.consts m).map
              (fun cv2 : Val => (⟨cv2.ty, List.replicate t.len cv2⟩ : Slc))) = _
    rw [alook_append]
    cases h2 : alook t.cols m with
    | some c2 => rfl
    | none =>
      by_cases hm : m = n
      · subst hm
        rw [hv]
        simp [alook]
      · have hnil : alook [(n, (⟨cv.ty, List.replicate t.len cv⟩ : Slc))] m = none := by
          simp only [alook, if_neg (fun h3 : n = m => hm h3.symm)]
        rw [hnil]
  · rw [he]
    exact ⟨rfl, rfl, rfl, fun m => rfl⟩

/-- C2 (amended): the memoization a `Column` read performs is transparent to
every read operation — the length, column names, constant map and all
`Column` results are unchanged — though not to a subsequent `Add` (see the
counterexample). -/
theorem C2_memoization_transparent_to_reads (t : Table) (n : String) :
    (t.column n).2.len = t.len ∧
    (t.column n).2.colNames = t.colNames ∧
    (t.column n).2.consts = t.consts ∧
    (∀ m, ((t.column n).2.column m).1 = (t.column m).1) :=
  memo_reads_eq t n

/-- C5 (amended): every Table reachable by `Add`, `AddConst` and `Column`
reads has duplicate-free column names, each name is backed by at least one
map, each map's keys are names and duplicate-free — but a name can be in
BOTH maps, exactly when a `Column` read memoized a constant's expansion,
and then the regular entry equals that expansion. -/
theorem C5_reachable_name_uniqueness {t : Table} (h : Reach t) :
    t.colNames.Nodup ∧
    (∀ n ∈ t.colNames, (alook t.cols n).isSome ∨ (alook t.consts n).isSome) ∧
    (∀ p ∈ t.cols, p.1 ∈ t.colNames) ∧
    (∀ p ∈ t.consts, p.1 ∈ t.colNames) ∧
    (t.cols.map Prod.fst).Nodup ∧
    (t.consts.map Prod.fst).Nodup ∧
    (∀ p ∈ t.cols, ∀ q ∈ t.consts, p.1 = q.1 →
       p.2 = ⟨q.2.ty, List.replicate t.len q.2⟩) :=
  have w := reach_wf h
  ⟨w.nodupNames, w.cover, w.colsSub, w.constsSub, w.nodupCols, w.nodupConsts, w.cache⟩

/-- Witness for C5's amended theorem at the memoized table `tCMemo`. -/
theorem C5_reachable_name_uniqueness_witness :
    Reach tCMemo ∧
    (tCMemo.colNames.Nodup ∧
     (∀ n ∈ tCMemo.colNames, (alook tCMemo.cols n).isSome ∨ (alook tCMemo.consts n).isSome) ∧
     (∀ p ∈ tCMemo.cols, p.1 ∈ tCMemo.colNames) ∧
     (∀ p ∈ tCMemo.consts, p.1 ∈ tCMemo.colNames) ∧
     (tCMemo.cols.map Prod.fst).Nodup ∧
     (tCMemo.consts.map Prod.fst).Nodup ∧
     (∀ p ∈ tCMemo.cols, ∀ q ∈ tCMemo.consts, p.1 = q.1 →
        p.2 = ⟨q.2.ty, List.replicate tCMemo.len q.2⟩)) :=
  ⟨tCMemo_reach, C5_reachable_name_uniqueness tCMemo_reach⟩

/-- C8 (amended): `Len` is 0 on the empty Table and equals every regular
column's length; but a non-empty all-constant Table reports the row count
the last regular columns established (possibly non-zero), not 0. -/
theorem C8_len_characterization {t : Table} (h : Reach t) :
    (t.colNames = [] → t.len = 0) ∧
    (∀ p ∈ t.cols, p.2.data.length = t.len) :=
  have w := reach_wf h
  ⟨fun hc => by rw [w.emptyCanon hc]; rfl, w.colsLen⟩

theorem tX2_reach : Reach tX2 := by
  have h1 : emptyTable.add "x" (some dx2) = .ok tX2 := by decide
  exact Reach.addStep Reach.empty (fun s hs => by cases hs; decide) h1

/-- Witness for C8's amended theorem at `tX2`. -/
theorem C8_len_characterization_witness :
    Reach tX2 ∧
    ((tX2.colNames = [] → tX2.len = 0) ∧
     (∀ p ∈ tX2.cols, p.2.data.length = tX2.len)) :=
  ⟨tX2_reach, C8_len_characterization tX2_reach⟩

end GoGG


namespace GoGG

/-- The table `Add` builds in its success branches: the receiver cloned
without `n`, with `(n, d)` appended and row count `L`. -/
def addFresh (t : Table) (n : String) (d : Slc) (L : Nat) : Table :=
  ⟨(t.cloneSans n).cols ++ [(n, d)], (t.cloneSans n).consts,
   (t.cloneSans n).colNames ++ [n], L⟩

/-- `Add` with data, written out branch by branch. -/
theorem add_some_eq (t : Table) (n : String) (d : Slc) :
    t.add n (some d) =
      (if (t.cloneSans n).cols.isEmpty then .ok (addFresh t n d d.data.length)
       else if (t.cloneSans n).len ≠ d.data.length then
         .error (.lengthMismatch n d.data.length (t.cloneSans n).len)
       else .ok (addFresh t n d t.len)) := rfl

/-- `Add` with nil data, written out branch by branch. -/
theorem add_none_eq (t : Table) (n : String) :
    t.add n none =
      (if (alook t.cols n).isNone ∧ (alook t.consts n).isNone then .ok t
       else if t.colNames.length = 1 then .ok emptyTable
       else .ok (t.cloneSans n)) := rfl

theorem cloneSans_cols_alook_self (t : Table) (n : String) :
    alook (t.cloneSans n).cols n = none :=
  alook_eq_none_iff.mpr (fun _p hp => (cloneSans_cols_mem.mp hp).2.1)

theorem alook_sing_self {α : Type} (n : String) (v : α) : alook [(n, v)] n = some v := by
  simp [alook]

theorem alook_sing_ne {α : Type} {n k : String} (v : α) (hk : ¬n = k) :
    alook [(n, v)] k = none := by
  simp only [alook, if_neg hk]

theorem addFresh_cols_alook_self (t : Table) (n : String) (d : Slc) (L : Nat) :
    alook (addFresh t n d L).cols n = some d := by
  show alook ((t.cloneSans n).cols ++ [(n, d)]) n = some d
  rw [alook_append, cloneSans_cols_alook_self]
  exact alook_sing_self n d

/-- C7 (amended): `Add(name, data)` with non-nil data redefines the row count
whenever the receiver has no regular column OTHER than `name` itself
(including cached constant expansions); otherwise it succeeds exactly when
the data's length equals the receiver's row count, failing with a
length-mismatch panic naming the column and both lengths. -/
theorem C7_add_length_check (t : Table) (n : String) (d : Slc) :
    ((t.cloneSans n).cols = [] →
       t.add n (some d) = .ok (addFresh t n d d.data.length) ∧
       (addFresh t n d d.data.length).len = d.data.length ∧
       alook (addFresh t n d d.data.length).cols n = some d) ∧
    ((t.cloneSans n).cols ≠ [] → d.data.length = t.len →
       t.add n (some d) = .ok (addFresh t n d t.len) ∧
       (addFresh t n d t.len).len = t.len ∧
       alook (addFresh t n d t.len).cols n = some d) ∧
    ((t.cloneSans n).cols ≠ [] → d.data.length ≠ t.len →
       t.add n (some d) = .error (.lengthMismatch n d.data.length t.len)) := by
  refine ⟨?_, ?_, ?_⟩
  · intro hc
    refine ⟨?_, rfl, addFresh_cols_alook_self t n d _⟩
    rw [add_some_eq, if_pos (List.isEmpty_iff.mpr hc)]
  · intro hc hl
    have hie : ¬(t.cloneSans n).cols.isEmpty = true :=
      fun hie => hc (List.isEmpty_iff.mp hie)
    have hok : ¬(t.cloneSans n).len ≠ d.data.length := by
      rw [cloneSans_len, hl]
      exact fun hk => hk rfl
    refine ⟨?_, rfl, addFresh_cols_alook_self t n d _⟩
    rw [add_some_eq, if_neg hie, if_neg hok]
  · intro hc hl
    have hie : ¬(t.cloneSans n).cols.isEmpty = true :=
      fun hie => hc (List.isEmpty_iff.mp hie)
    have hbad : (t.cloneSans n).len ≠ d.data.length := by
      rw [cloneSans_len]
      exact fun hk => hl hk.symm
    rw [add_some_eq, if_neg hie, if_pos hbad]
    rfl

/-- Witness for C7's amended theorem: the length-mismatch branch at `tX2`. -/
theorem C7_add_length_check_witness :
    (tX2.cloneSans "y").cols ≠ [] ∧ (1 : Nat) ≠ tX2.len ∧
    tX2.add "y" (some ⟨.int, [.int 7]⟩) = .error (.lengthMismatch "y" 1 2) := by
  refine ⟨by decide, by decide, ?_⟩
  exact (C7_add_length_check tX2 "y" ⟨.int, [.int 7]⟩).2.2 (by decide) (by decide)

/-- Observational equality of Tables: same column names, same row count, and
the same results from `Const` and `Column` reads. -/
def obsEqT (t1 t2 : Table) : Prop :=
  t1.colNames = t2.colNames ∧ t1.len = t2.len ∧
  (∀ n, t1.constVal n = t2.constVal n) ∧
  (∀ n, (t1.column n).1 = (t2.column n).1)

theorem obsEqT_of_alook {t1 t2 : Table} (h1 : t1.colNames = t2.colNames)
    (h2 : t1.len = t2.len) (hc : ∀ n, alook t1.cols n = alook t2.cols n)
    (hk : ∀ n, alook t1.consts n = alook t2.consts n) : obsEqT t1 t2 := by
  refine ⟨h1, h2, fun n => hk n, fun n => ?_⟩
  rw [column_fst, column_fst, hc n, hk n, h2]

theorem obsEqT_refl (t : Table) : obsEqT t t := ⟨rfl, rfl, fun _ => rfl, fun _ => rfl⟩

theorem filter_ne_of_not_mem {names : List String} {n : String} (hn : n ∉ names) :
    names.filter (fun x => x ≠ n) = names := by
  apply List.filter_eq_self.mpr
  intro a ha
  simp only [ne_eq, decide_not, Bool.not_eq_true', decide_eq_false_iff_not]
  intro he
  exact hn (he ▸ ha)

end GoGG

namespace GoGG

/-- C6 (amended): `t.Add(n, d).Add(n, nil)` is observably `t` again, provided
`n` is not already a column of `t` and the first `Add` does not redefine the
row count of an all-constant receiver (that is: `t` has a regular column, or
`d` has exactly `t.Len` elements, or `t` is empty); and, exactly as the
original claim states, when `n` is `t`'s only column — regular or constant —
the round trip yields the canonical empty Table. -/
theorem C6_add_remove_roundtrip (t : Table) (n : String) (d : Slc) (h : t.WF) :
    ((n ∉ t.colNames) →
      (t.colNames = [] ∨ t.cols ≠ [] ∨ d.data.length = t.len) →
      ∀ t1, t.add n (some d) = .ok t1 →
        ∃ t2, t1.add n none = .ok t2 ∧ obsEqT t2 t) ∧
    (t.colNames = [n] →
      t.add n (some d) = .ok ⟨[(n, d)], [], [n], d.data.length⟩ ∧
      (Table.mk [(n, d)] [] [n] d.data.length).add n none = .ok emptyTable) := by
  constructor
  · intro hn hl t1 h1
    have hnc : alook t.cols n = none := alook_none_of_keys h.colsSub hn
    have hnk : alook t.consts n = none := alook_none_of_keys h.constsSub hn
    have hfilid : t.colNames.filter (fun x => x ≠ n) = t.colNames := filter_ne_of_not_mem hn
    have hcseq : ∀ k, alook (t.cloneSans n).cols k = alook t.cols k := by
      intro k
      rw [h.cloneSans_cols]
      by_cases hk : k = n
      · subst hk
        rw [if_pos rfl, hnc]
      · rw [if_neg hk]
    have hkseq : ∀ k, alook (t.cloneSans n).consts k = alook t.consts k := by
      intro k
      rw [h.cloneSans_consts]
      by_cases hk : k = n
      · subst hk
        rw [if_pos rfl, hnk]
      · rw [if_neg hk]
    -- in every success branch the first Add produces `addFresh t n d L`
    have key : ∃ L, t1 = addFresh t n d L ∧ L = t.len ∨
        (t1 = addFresh t n d L ∧ t.colNames = [] ∧ L = d.data.length) := by
      rw [add_some_eq] at h1
      by_cases hie : (t.cloneSans n).cols.isEmpty = true
      · rw [if_pos hie] at h1
        have hcols : t.cols = [] := by
          cases hco : t.cols with
          | nil => rfl
          | cons p rest =>
            exfalso
            have hmem : p ∈ (t.cloneSans n).cols := by
              apply cloneSans_cols_mem.mpr
              refine ⟨h.colsSub p (by rw [hco]; simp), ?_, ?_⟩
              · intro he
                exact hn (he ▸ h.colsSub p (by rw [hco]; simp))
              · exact alook_of_mem_nodup h.nodupCols (by simp [hco])
            rw [List.isEmpty_iff.mp hie] at hmem
            cases hmem
        by_cases hempty : t.colNames = []
        · exact ⟨d.data.length, Or.inr ⟨(Except.ok.inj h1).symm, hempty, rfl⟩⟩
        · have hdl : d.data.length = t.len := by
            rcases hl with hl | hl | hl
            · exact absurd hl hempty
            · exact absurd hcols hl
            · exact hl
          refine ⟨d.data.length, Or.inl ⟨(Except.ok.inj h1).symm, hdl⟩⟩
      · rw [if_neg hie] at h1
        by_cases hlen : (t.cloneSans n).len ≠ d.data.length
        · rw [if_pos hlen] at h1
          cases h1
        · rw [if_neg hlen] at h1
          exact ⟨t.len, Or.inl ⟨(Except.ok.inj h1).symm, rfl⟩⟩
    -- the removal step and the observational equality, uniformly
    have main : ∀ L, L = t.len ∨ t.colNames = [] →
        ∃ t2, (addFresh t n d L).add n none = .ok t2 ∧ obsEqT t2 t := by
      intro L hL
      have ht1n : alook (addFresh t n d L).cols n = some d := addFresh_cols_alook_self t n d L
      have ht1names : (addFresh t n d L).colNames = t.colNames ++ [n] := by
        show (t.cloneSans n).colNames ++ [n] = t.colNames ++ [n]
        rw [cloneSans_colNames, hfilid]
      by_cases hempty : t.colNames = []
      · -- removing the only column yields the canonical empty table, which is t
        have ht : t = emptyTable := h.emptyCanon hempty
        refine ⟨emptyTable, ?_, ht ▸ obsEqT_refl emptyTable⟩
        have hlen1 : (addFresh t n d L).colNames.length = 1 := by
          rw [ht1names, hempty]
          rfl
        rw [add_none_eq]
        rw [if_neg (fun hcon => by rw [ht1n] at hcon; cases hcon.1), if_pos hlen1]
      · have hL2 : L = t.len := by
          rcases hL with hL | hL
          · exact hL
          · exact absurd hL hempty
        have hfil1 : (addFresh t n d L).colNames.filter (fun x => x ≠ n) = t.colNames := by
          rw [ht1names, List.filter_append, hfilid]
          simp
        refine ⟨(addFresh t n d L).cloneSans n, ?_, ?_⟩
        · have hlen1 : ¬(addFresh t n d L).colNames.length = 1 := by
            rw [ht1names, List.length_append]
            have hz : t.colNames.length ≠ 0 := fun hz => hempty (List.length_eq_zero.mp hz)
            simp only [List.length_singleton]
            omega
          rw [add_none_eq]
          rw [if_neg (fun hcon => by rw [ht1n] at hcon; cases hcon.1), if_neg hlen1]
        · apply obsEqT_of_alook
          · rw [cloneSans_colNames, hfil1]
          · rw [cloneSans_len]
            exact hL2
          · intro k
            rw [cloneSans_cols_alook, hfil1]
            by_cases hk : k ∈ t.colNames
            · have hkn2 : ¬k = n := fun he => hn (he ▸ hk)
              rw [if_pos hk]
              show alook ((t.cloneSans n).cols ++ [(n, d)]) k = alook t.cols k
              rw [alook_append]
              rw [← hcseq k]
              cases h2 : alook (t.cloneSans n).cols k with
              | some c2 => rfl
              | none => exact alook_sing_ne d (fun he => hkn2 he.symm)
            · rw [if_neg hk]
              exact (alook_none_of_keys h.colsSub hk).symm
          · intro k
            rw [cloneSans_consts_alook, hfil1]
            by_cases hk : k ∈ t.colNames
            · rw [if_pos hk]
              show alook (t.cloneSans n).consts k = alook t.consts k
              exact hkseq k
            · rw [if_neg hk]
              exact (alook_none_of_keys h.constsSub hk).symm
    obtain ⟨L, hky⟩ := key
    rcases hky with ⟨he, hL⟩ | ⟨he, hempty, hL⟩
    · subst he
      exact main L (Or.inl hL)
    · subst he
      exact main L (Or.inr hempty)
  · intro hcn
    have hfil : t.colNames.filter (fun x => x ≠ n) = [] := by
      rw [hcn]
      simp
    have hcols : (t.cloneSans n).cols = [] := by
      show (t.colNames.filter (fun x => x ≠ n)).filterMap
          (fun m => (alook t.cols m).map (fun c => (m, c))) = []
      rw [hfil]
      rfl
    have hconsts : (t.cloneSans n).consts = [] := by
      show (t.colNames.filter (fun x => x ≠ n)).filterMap
          (fun m => (alook t.consts m).map (fun cv => (m, cv))) = []
      rw [hfil]
      rfl
    have hnames : (t.cloneSans n).colNames = [] := hfil
    have hie : (t.cloneSans n).cols.isEmpty = true := by
      rw [hcols]
      rfl
    have haf : addFresh t n d d.data.length = ⟨[(n, d)], [], [n], d.data.length⟩ := by
      show (⟨(t.cloneSans n).cols ++ [(n, d)], (t.cloneSans n).consts,
            (t.cloneSans n).colNames ++ [n], d.data.length⟩ : Table) = _
      rw [hcols, hconsts, hnames]
      rfl
    constructor
    · rw [add_some_eq, if_pos hie, haf]
    · rw [add_none_eq]
      rw [if_neg (fun hcon => by
        have h3 : (alook ([(n, d)] : List (String × Slc)) n).isNone = true := hcon.1
        rw [alook_sing_self] at h3
        cases h3)]
      have hone : (Table.mk [(n, d)] [] [n] d.data.length).colNames.length = 1 := rfl
      rw [if_pos hone]

/-- Witness for C6's amended theorem: the fresh-column part at `tX2` (adding
then removing `y`), and the only-column part at `tX1` (whose single column
`x` is replaced and removed, yielding the canonical empty Table). -/
theorem C6_add_remove_roundtrip_witness :
    (tX2.WF ∧ "y" ∉ tX2.colNames ∧
     (tX2.colNames = [] ∨ tX2.cols ≠ [] ∨
       (Slc.mk Ty.int [Val.int 7, Val.int 8]).data.length = tX2.len) ∧
     tX2.add "y" (some ⟨.int, [.int 7, .int 8]⟩) =
       .ok (addFresh tX2 "y" ⟨.int, [.int 7, .int 8]⟩ 2) ∧
     (∃ t2, (addFresh tX2 "y" ⟨.int, [.int 7, .int 8]⟩ 2).add "y" none = .ok t2 ∧
       obsEqT t2 tX2)) ∧
    (tX1.WF ∧ tX1.colNames = ["x"] ∧
     tX1.add "x" (some ⟨.int, [.int 9, .int 9]⟩) =
       .ok ⟨[("x", ⟨.int, [.int 9, .int 9]⟩)], [], ["x"], 2⟩ ∧
     (Table.mk [("x", ⟨.int, [.int 9, .int 9]⟩)] [] ["x"] 2).add "x" none =
       .ok emptyTable) := by
  have hw : tX2.WF := reach_wf tX2_reach
  have hw1 : tX1.WF := by
    refine ⟨?_, ?_, ?_, ?_, ?_, ?_, ?_, ?_, ?_, ?_⟩ <;> decide
  have hn : "y" ∉ tX2.colNames := by decide
  have hl : tX2.colNames = [] ∨ tX2.cols ≠ [] ∨
      (Slc.mk Ty.int [Val.int 7, Val.int 8]).data.length = tX2.len := by
    right; left; decide
  have h1 : tX2.add "y" (some ⟨.int, [.int 7, .int 8]⟩) =
      .ok (addFresh tX2 "y" ⟨.int, [.int 7, .int 8]⟩ 2) := by decide
  refine ⟨⟨hw, hn, hl, h1,
    (C6_add_remove_roundtrip tX2 "y" ⟨.int, [.int 7, .int 8]⟩ hw).1 hn hl _ h1⟩,
    hw1, by decide, ?_, ?_⟩
  · exact ((C6_add_remove_roundtrip tX1 "x" ⟨.int, [.int 9, .int 9]⟩ hw1).2 (by decide)).1
  · exact ((C6_add_remove_roundtrip tX1 "x" ⟨.int, [.int 9, .int 9]⟩ hw1).2 (by decide)).2

end GoGG

namespace GoGG

/-- The comparable type `AddTable` extracts for a column: the element type of
the regular entry when present, otherwise the type of the constant value. -/
def Table.tyAt (t : Table) (c : String) : Option Ty :=
  match alook t.cols c with
  | some s => some s.elemTy
  | none => (alook t.consts c).map Val.ty

/-- The base table the validation of `AddTable` compares against: the table
of the first surviving group. -/
def GroupedTable.baseTable (g : GroupedTable) (gid : Nat) : Table :=
  (alook (g.evict gid).tables ((g.evict gid).groups.headD 0)).getD emptyTable

theorem checkColsT_eq_none_iff (tBase t : Table) (cs : List String) :
    checkColsT tBase t cs = none ↔
      ∀ c ∈ cs, ((alook t.cols c).isSome ∨ (alook t.consts c).isSome) ∧
        t.tyAt c = tBase.tyAt c := by
  induction cs with
  | nil => simp [checkColsT]
  | cons c rest ih =>
    show (match alook t.cols c with
          | some s =>
            if tBase.tyAt c ≠ some s.elemTy
            then some (TErr.typeMismatch c (tBase.tyAt c) (some s.elemTy))
            else checkColsT tBase t rest
          | none =>
            match alook t.consts c with
            | some cv =>
              if tBase.tyAt c ≠ some cv.ty
              then some (TErr.typeMismatch c (tBase.tyAt c) (some cv.ty))
              else checkColsT tBase t rest
            | none => some (TErr.missingColumn c)) = none ↔ _
    cases hc : alook t.cols c with
    | some s =>
      show (if tBase.tyAt c ≠ some s.elemTy
            then some (TErr.typeMismatch c (tBase.tyAt c) (some s.elemTy))
            else checkColsT tBase t rest) = none ↔ _
      have hty : t.tyAt c = some s.elemTy := by
        unfold Table.tyAt
        rw [hc]
      by_cases he : tBase.tyAt c ≠ some s.elemTy
      · rw [if_pos he]
        simp only [List.mem_cons]
        constructor
        · intro hcon
          cases hcon
        · intro hall
          have := (hall c (Or.inl rfl)).2
          rw [hty] at this
          exact absurd this.symm he
      · rw [if_neg he]
        rw [not_not] at he
        rw [ih]
        constructor
        · intro hall c2 hc2
          rcases List.mem_cons.mp hc2 with hc2 | hc2
          · subst hc2
            exact ⟨Or.inl (by rw [hc]; rfl), by rw [hty, he]⟩
          · exact hall c2 hc2
        · intro hall c2 hc2
          exact hall c2 (List.mem_cons_of_mem _ hc2)
    | none =>
      cases hv : alook t.consts c with
      | some cv =>
        show (if tBase.tyAt c ≠ some cv.ty
              then some (TErr.typeMismatch c (tBase.tyAt c) (some cv.ty))
              else checkColsT tBase t rest) = none ↔ _
        have hty : t.tyAt c = some cv.ty := by
          unfold Table.tyAt
          rw [hc, hv]
          rfl
        by_cases he : tBase.tyAt c ≠ some cv.ty
        · rw [if_pos he]
          simp only [List.mem_cons]
          constructor
          · intro hcon
            cases hcon
          · intro hall
            have := (hall c (Or.inl rfl)).2
            rw [hty] at this
            exact absurd this.symm he
        · rw [if_neg he]
          rw [not_not] at he
          rw [ih]
          constructor
          · intro hall c2 hc2
            rcases List.mem_cons.mp hc2 with hc2 | hc2
            · subst hc2
              exact ⟨Or.inr (by rw [hv]; rfl), by rw [hty, he]⟩
            · exact hall c2 hc2
          · intro hall c2 hc2
            exact hall c2 (List.mem_cons_of_mem _ hc2)
      | none =>
        show some (TErr.missingColumn c) = none ↔ _
        constructor
        · intro hcon
          cases hcon
        · intro hall
          have := (hall c (List.mem_cons_self c rest)).1
          rw [hc, hv] at this
          rcases this with h2 | h2 <;> cases h2

theorem extraCheck_eq_none_iff (t : Table) (colNames : List String) :
    extraCheck t colNames = none ↔
      (t.cols.length = colNames.length ∨ ∀ p ∈ t.cols, p.1 ∈ colNames) := by
  unfold extraCheck
  by_cases hlen : t.cols.length ≠ colNames.length
  · rw [if_pos hlen]
    cases hf : t.cols.find? (fun p => decide (p.1 ∉ colNames)) with
    | some p =>
      constructor
      · intro hcon
        cases hcon
      · rintro (h2 | h2)
        · exact absurd h2 hlen
        · have hp := List.find?_some hf
          have hm := List.mem_of_find?_eq_some hf
          rw [decide_eq_true_eq] at hp
          exact absurd (h2 p hm) hp
    | none =>
      simp only [true_iff]
      right
      intro p hp
      have := List.find?_eq_none.mp hf p hp
      rw [decide_eq_true_eq] at this
      exact not_not.mp this
  · rw [if_neg hlen]
    simp only [true_iff]
    exact Or.inl (not_not.mp hlen)

/-- `AddTable` of a non-empty table to a grouping that keeps at least one
other group, written as validation followed by insertion. -/
theorem addT_some_eq {g : GroupedTable} {gid : Nat} {t : Table}
    (ht : ¬t.colNames = []) (hrem : ¬(g.evict gid).groups = []) :
    g.addT gid (some t) =
      (match checkColsT (g.baseTable gid) t g.colNames with
       | some e => .error e
       | none =>
         match extraCheck t g.colNames with
         | some e => .error e
         | none =>
           .ok ⟨(g.evict gid).tables ++ [(gid, t)], (g.evict gid).groups ++ [gid],
                g.colNames⟩) := by
  show (if t.colNames = [] then Except.ok g
        else
          if (g.evict gid).groups = [] then
            Except.ok ⟨(g.evict gid).tables ++ [(gid, t)], (g.evict gid).groups ++ [gid],
                       t.colNames⟩
          else
            match checkColsT ((alook (g.evict gid).tables
                ((g.evict gid).groups.headD 0)).getD emptyTable) t (g.evict gid).colNames with
            | some e => Except.error e
            | none =>
              match extraCheck t (g.evict gid).colNames with
              | some e => Except.error e
              | none =>
                Except.ok ⟨(g.evict gid).tables ++ [(gid, t)], (g.evict gid).groups ++ [gid],
                           (g.evict gid).colNames⟩) = _
  rw [if_neg ht, if_neg hrem]
  rfl

/-- C3 (amended): adding a non-nil, non-empty Table `t` to a Grouping that
keeps at least one other group succeeds if and only if (a) every established
column name is supplied by `t` (else a missing-column panic) with the same
comparable type as in the base group (else a type-mismatch panic naming the
column and both types), and (b) the number of `t`'s regular columns equals
the schema size, or every regular column's name is in the schema (the
extra-column check only counts and scans regular columns).  Consequently an
extra CONSTANT column — or an extra regular column balanced by a schema
constant absent from `t`'s regular map — is admitted, and groups need not
share one column-name set. -/
theorem C3_addTable_validation {g : GroupedTable} {gid : Nat} {t : Table}
    (ht : ¬t.colNames = []) (hrem : ¬(g.evict gid).groups = []) :
    (g.addT gid (some t)).isOk = true ↔
      ((∀ c ∈ g.colNames, ((alook t.cols c).isSome ∨ (alook t.consts c).isSome) ∧
          t.tyAt c = (g.baseTable gid).tyAt c) ∧
       (t.cols.length = g.colNames.length ∨ ∀ p ∈ t.cols, p.1 ∈ g.colNames)) := by
  rw [addT_some_eq ht hrem]
  cases hcheck : checkColsT (g.baseTable gid) t g.colNames with
  | some e =>
    constructor
    · intro hcon
      cases hcon
    · intro hr
      have := (checkColsT_eq_none_iff _ _ _).mpr hr.1
      rw [hcheck] at this
      cases this
  | none =>
    cases hextra : extraCheck t g.colNames with
    | some e =>
      constructor
      · intro hcon
        cases hcon
      · intro hr
        have := (extraCheck_eq_none_iff _ _).mpr hr.2
        rw [hextra] at this
        cases this
    | none =>
      simp only [Except.isOk, Except.toBool, true_iff]
      exact ⟨(checkColsT_eq_none_iff _ _ _).mp hcheck,
             (extraCheck_eq_none_iff _ _).mp hextra⟩

/-- Witness for C3's amended theorem: the extra-constant-column table `tX1c`
passes validation against the one-column schema of `gOneX`. -/
theorem C3_addTable_validation_witness :
    (¬tX1c.colNames = []) ∧ (¬(gOneX.evict 2).groups = []) ∧
    ((gOneX.addT 2 (some tX1c)).isOk = true ↔
      ((∀ c ∈ gOneX.colNames,
          ((alook tX1c.cols c).isSome ∨ (alook tX1c.consts c).isSome) ∧
          tX1c.tyAt c = (gOneX.baseTable 2).tyAt c) ∧
       (tX1c.cols.length = gOneX.colNames.length ∨
        ∀ p ∈ tX1c.cols, p.1 ∈ gOneX.colNames))) :=
  ⟨by decide, by decide, C3_addTable_validation (by decide) (by decide)⟩

end GoGG

namespace GoGG

theorem val_lt_irrefl (v : Val) : Val.lt v v = false := by
  cases v <;> simp [Val.lt]

theorem val_lt_asymm {a b : Val} (h : Val.lt a b = true) : Val.lt b a = false := by
  cases a <;> cases b <;> simp [Val.lt] at h ⊢
  · omega
  · exact le_of_lt h

theorem val_le_trans {a b c : Val} (hab : a.ty = b.ty) (hbc : b.ty = c.ty)
    (ho : a.ty.orderable = true) (h1 : Val.lt b a = false) (h2 : Val.lt c b = false) :
    Val.lt c a = false := by
  cases a <;> cases b <;> cases c <;>
    simp_all [Val.lt, Val.ty, Ty.orderable]
  · omega
  · exact le_trans h1 h2

theorem keyLess_tie {k : List Val} {i j : Nat}
    (h : k.getD i default = k.getD j default) : keyLess k i j = false := by
  unfold keyLess
  rw [h]
  exact val_lt_irrefl _

theorem permSortLessB_tie {keys : List (List Val)} {i j : Nat}
    (h : ∀ k ∈ keys, k.getD i default = k.getD j default) :
    permSortLessB keys i j = false := by
  induction keys with
  | nil => rfl
  | cons k rest ih =>
    cases rest with
    | nil =>
      show keyLess k i j = false
      exact keyLess_tie (h k (by simp))
    | cons k2 r2 =>
      show (if keyLess k i j then true
            else if keyLess k j i then false
            else permSortLessB (k2 :: r2) i j) = false
      have h1 : keyLess k i j = false := keyLess_tie (h k (by simp))
      have h2 : keyLess k j i = false := keyLess_tie ((h k (by simp)).symm)
      rw [h1, h2]
      simp only [Bool.false_eq_true, if_false]
      exact ih (fun k3 hk3 => h k3 (List.mem_cons_of_mem _ hk3))

theorem permSortLessB_asymm {keys : List (List Val)} :
    ∀ {i j : Nat}, permSortLessB keys i j = true → permSortLessB keys j i = false := by
  induction keys with
  | nil =>
    intro i j h
    cases h
  | cons k rest ih =>
    intro i j h
    cases rest with
    | nil => exact val_lt_asymm h
    | cons k2 r2 =>
      rw [show permSortLessB (k :: k2 :: r2) i j =
          (if keyLess k i j then true
           else if keyLess k j i then false
           else permSortLessB (k2 :: r2) i j) from rfl] at h
      show (if keyLess k j i then true
            else if keyLess k i j then false
            else permSortLessB (k2 :: r2) j i) = false
      by_cases h1 : keyLess k i j = true
      · have h2 : keyLess k j i = false := val_lt_asymm h1
        rw [h1, h2]
        simp
      · by_cases h2 : keyLess k j i = true
        · rw [Bool.not_eq_true] at h1
          rw [h1, h2] at h
          simp at h
        · rw [Bool.not_eq_true] at h1 h2
          rw [h1, h2] at h
          simp at h
          rw [h1, h2]
          simp
          exact ih h

end GoGG

namespace GoGG

theorem ordIns_perm (le : Nat → Nat → Bool) (x : Nat) :
    ∀ l : List Nat, (ordIns le x l).Perm (x :: l) := by
  intro l
  induction l with
  | nil => exact List.Perm.refl _
  | cons y ys ih =>
    show (if le x y then x :: y :: ys else y :: ordIns le x ys).Perm (x :: y :: ys)
    by_cases h : le x y = true
    · rw [if_pos h]
    · rw [if_neg h]
      exact (ih.cons y).trans (List.Perm.swap x y ys)

theorem insSort_perm (le : Nat → Nat → Bool) :
    ∀ l : List Nat, (insSort le l).Perm l := by
  intro l
  induction l with
  | nil => exact List.Perm.refl _
  | cons x xs ih =>
    show (ordIns le x (insSort le xs)).Perm (x :: xs)
    exact (ordIns_perm le x _).trans (ih.cons x)

theorem insSort_length (le : Nat → Nat → Bool) (l : List Nat) :
    (insSort le l).length = l.length :=
  (insSort_perm le l).length_eq

theorem mem_insSort (le : Nat → Nat → Bool) {l : List Nat} {x : Nat} :
    x ∈ insSort le l ↔ x ∈ l :=
  (insSort_perm le l).mem_iff

theorem mem_ordIns {le : Nat → Nat → Bool} {x z : Nat} {l : List Nat} :
    z ∈ ordIns le x l ↔ z = x ∨ z ∈ l := by
  rw [(ordIns_perm le x l).mem_iff, List.mem_cons]

theorem sublist_ordIns (le : Nat → Nat → Bool) (x : Nat) :
    ∀ l : List Nat, l.Sublist (ordIns le x l) := by
  intro l
  induction l with
  | nil => simp [ordIns]
  | cons y ys ih =>
    show (y :: ys).Sublist (if le x y then x :: y :: ys else y :: ordIns le x ys)
    by_cases h : le x y = true
    · rw [if_pos h]
      exact (List.Sublist.refl _).cons x
    · rw [if_neg h]
      exact ih.cons₂ y

theorem ordIns_before {le : Nat → Nat → Bool} {x j : Nat} :
    ∀ {l : List Nat}, j ∈ l → le x j = true → [x, j].Sublist (ordIns le x l) := by
  intro l
  induction l with
  | nil =>
    intro hj
    cases hj
  | cons y ys ih =>
    intro hj hle
    show [x, j].Sublist (if le x y then x :: y :: ys else y :: ordIns le x ys)
    by_cases h : le x y = true
    · rw [if_pos h]
      exact (List.singleton_sublist.mpr hj).cons₂ x
    · rw [if_neg h]
      rcases List.mem_cons.mp hj with hj | hj
      · subst hj
        rw [hle] at h
        cases h rfl
      · exact (ih hj hle).cons y

theorem insSort_stable_pair {le : Nat → Nat → Bool} :
    ∀ {l : List Nat} {i j : Nat}, [i, j].Sublist l → le i j = true →
      [i, j].Sublist (insSort le l) := by
  intro l
  induction l with
  | nil =>
    intro i j hs
    cases hs
  | cons x xs ih =>
    intro i j hs hle
    show [i, j].Sublist (ordIns le x (insSort le xs))
    cases hs with
    | cons _ hs2 => exact (ih hs2 hle).trans (sublist_ordIns le x _)
    | cons₂ _ hs2 =>
      have hj : j ∈ insSort le xs :=
        (mem_insSort le).mpr (List.singleton_sublist.mp hs2)
      exact ordIns_before hj hle

theorem pairwise_ordIns {le : Nat → Nat → Bool} {P : Nat → Prop}
    (htot : ∀ a b, le a b = true ∨ le b a = true)
    (htr : ∀ a b c, P a → P b → P c → le a b = true → le b c = true → le a c = true) :
    ∀ {l : List Nat} {x : Nat}, P x → (∀ y ∈ l, P y) →
      l.Pairwise (fun a b => le a b = true) →
      (ordIns le x l).Pairwise (fun a b => le a b = true) := by
  intro l
  induction l with
  | nil =>
    intro x _ _ _
    simp [ordIns]
  | cons y ys ih =>
    intro x hx hP hpw
    show (if le x y then x :: y :: ys else y :: ordIns le x ys).Pairwise _
    rcases List.pairwise_cons.mp hpw with ⟨hy, hpw2⟩
    by_cases h : le x y = true
    · rw [if_pos h]
      refine List.Pairwise.cons ?_ hpw
      intro z hz
      rcases List.mem_cons.mp hz with hz | hz
      · subst hz
        exact h
      · exact htr x y z hx (hP y (by simp)) (hP z (List.mem_cons_of_mem _ hz)) h (hy z hz)
    · rw [if_neg h]
      refine List.Pairwise.cons ?_ (ih hx (fun z hz => hP z (List.mem_cons_of_mem _ hz)) hpw2)
      intro z hz
      rcases mem_ordIns.mp hz with hz | hz
      · subst hz
        rcases htot y z with h2 | h2
        · exact h2
        · exact absurd h2 h
      · exact hy z hz

theorem pairwise_insSort {le : Nat → Nat → Bool} {P : Nat → Prop}
    (htot : ∀ a b, le a b = true ∨ le b a = true)
    (htr : ∀ a b c, P a → P b → P c → le a b = true → le b c = true → le a c = true) :
    ∀ {l : List Nat}, (∀ y ∈ l, P y) →
      (insSort le l).Pairwise (fun a b => le a b = true) := by
  intro l
  induction l with
  | nil =>
    intro _
    simp [insSort]
  | cons x xs ih =>
    intro hP
    show (ordIns le x (insSort le xs)).Pairwise _
    exact pairwise_ordIns htot htr (hP x (by simp))
      (fun y hy => hP y (List.mem_cons_of_mem _ ((mem_insSort le).mp hy)))
      (ih (fun y hy => hP y (List.mem_cons_of_mem _ hy)))

theorem isSortedSeq_of_pairwise :
    ∀ {l : List Val}, l.Pairwise (fun a b => Val.lt b a = false) → isSortedSeq l = true := by
  intro l
  induction l with
  | nil => intro _; rfl
  | cons a rest ih =>
    intro hpw
    cases rest with
    | nil => rfl
    | cons b r2 =>
      rcases List.pairwise_cons.mp hpw with ⟨ha, hpw2⟩
      show (!(Val.lt b a) && isSortedSeq (b :: r2)) = true
      rw [ha b (by simp), ih hpw2]
      rfl

theorem isSortedSeq_replicate (L : Nat) (v : Val) :
    isSortedSeq (List.replicate L v) = true := by
  induction L with
  | zero => rfl
  | succ m ih =>
    cases m with
    | zero => rfl
    | succ m2 =>
      show (!(Val.lt v v) && isSortedSeq (List.replicate (m2 + 1) v)) = true
      rw [val_lt_irrefl v, ih]
      rfl

theorem isSortedSeq_short {l : List Val} (h : l.length ≤ 1) : isSortedSeq l = true := by
  cases l with
  | nil => rfl
  | cons a rest =>
    cases rest with
    | nil => rfl
    | cons b r2 => simp at h

end GoGG

namespace GoGG

/-- Two tables that answer all reads identically. -/
def readsEq (t t' : Table) : Prop :=
  t'.len = t.len ∧ t'.colNames = t.colNames ∧ t'.consts = t.consts ∧
  (∀ m, (t'.column m).1 = (t.column m).1)

theorem readsEq_refl (t : Table) : readsEq t t := ⟨rfl, rfl, rfl, fun _ => rfl⟩

theorem readsEq_trans {t1 t2 t3 : Table} (h1 : readsEq t1 t2) (h2 : readsEq t2 t3) :
    readsEq t1 t3 :=
  ⟨h2.1.trans h1.1, h2.2.1.trans h1.2.1, h2.2.2.1.trans h1.2.2.1,
   fun m => (h2.2.2.2 m).trans (h1.2.2.2 m)⟩

theorem readsEq_column (t : Table) (n : String) : readsEq t (t.column n).2 :=
  memo_reads_eq t n

theorem readsEq_obsEqT {t t' : Table} (h : readsEq t t') : obsEqT t' t :=
  ⟨h.2.1, h.1, fun n => congrArg (fun cs => alook cs n) h.2.2.1, h.2.2.2⟩

/-- Reading the same column again returns the same value and leaves the
table unchanged. -/
theorem column_idem (t : Table) (n : String) :
    (t.column n).2.column n = ((t.column n).1, (t.column n).2) := by
  rcases column_cases t n with ⟨c, hc, he⟩ | ⟨hc, cv, hv, he⟩ | ⟨hc, hv, he⟩
  · rw [he]
    show t.column n = (some c, t)
    rw [he]
  · rw [he]
    have hl : alook (t.cols ++ [(n, (⟨cv.ty, List.replicate t.len cv⟩ : Slc))]) n =
        some ⟨cv.ty, List.replicate t.len cv⟩ := by
      rw [alook_append, hc]
      exact alook_sing_self _ _
    unfold Table.column
    rw [hl]
  · rw [he]
    show t.column n = (none, t)
    rw [he]

theorem wf_column_read {t : Table} (h : t.WF) {m : String} (hm : m ∈ t.colNames) :
    ∃ s, (t.column m).1 = some s ∧ s.data.length = t.len ∧ SlcWF s := by
  rcases column_cases t m with ⟨c, hc, he⟩ | ⟨hc, cv, hv, he⟩ | ⟨hc, hv, he⟩
  · exact ⟨c, by rw [he], h.colsLen _ (alook_eq_some_mem hc),
      h.colsTy _ (alook_eq_some_mem hc)⟩
  · refine ⟨⟨cv.ty, List.replicate t.len cv⟩, by rw [he], by simp, ?_⟩
    intro v hv2
    simp [List.eq_of_mem_replicate hv2]
  · exfalso
    rcases h.cover m hm with hco | hco
    · rw [hc] at hco
      cases hco
    · rw [hv] at hco
      cases hco

theorem column_none_of_not_mem {t : Table} (h : t.WF) {m : String} (hm : m ∉ t.colNames) :
    t.column m = (none, t) := by
  have hc : alook t.cols m = none := alook_none_of_keys h.colsSub hm
  have hv : alook t.consts m = none := alook_none_of_keys h.constsSub hm
  unfold Table.column
  rw [hc, hv]

/-- One unfolding step of the sorter-building loop. -/
theorem sorterLoop_cons (t : Table) (c : String) (rest : List String)
    (acc : List (List Val)) :
    sorterLoop t (c :: rest) acc =
      (match t.column c with
       | (none, _) => .error (.unknownColumn c)
       | (some s, t1) =>
         if s.elemTy.orderable then
           if isSortedSeq s.data then sorterLoop t1 rest acc
           else sorterLoop t1 rest (acc ++ [s.data])
         else .error (.unorderable c s.elemTy)) := rfl

theorem sorterLoop_spec :
    ∀ {cs : List String} {t : Table} {acc : List (List Val)} {t' : Table}
      {keys : List (List Val)},
      sorterLoop t cs acc = .ok (t', keys) →
      readsEq t t' ∧
      ∃ ks, keys = acc ++ ks ∧
        ∀ k ∈ ks, ∃ c ∈ cs, ∃ s, (t.column c).1 = some s ∧ k = s.data ∧
          s.elemTy.orderable = true ∧ isSortedSeq s.data = false := by
  intro cs
  induction cs with
  | nil =>
    intro t acc t' keys h
    have h2 : (Except.ok (t, acc) : Except TErr (Table × List (List Val))) = .ok (t', keys) := h
    cases h2
    exact ⟨readsEq_refl t, [], by simp, fun k hk => absurd hk (List.not_mem_nil k)⟩
  | cons c rest ih =>
    intro t acc t' keys h
    rw [sorterLoop_cons] at h
    rcases hpair : t.column c with ⟨o, t1⟩
    rw [hpair] at h
    have hrd : readsEq t t1 := by
      have := readsEq_column t c
      rw [hpair] at this
      exact this
    cases o with
    | none => cases h
    | some s =>
      have h2 : (if s.elemTy.orderable then
          (if isSortedSeq s.data then sorterLoop t1 rest acc
           else sorterLoop t1 rest (acc ++ [s.data]))
          else .error (.unorderable c s.elemTy)) = Except.ok (t', keys) := h
      by_cases ho : s.elemTy.orderable = true
      · rw [if_pos ho] at h2
        by_cases hsrt : isSortedSeq s.data = true
        · rw [if_pos hsrt] at h2
          obtain ⟨hrd2, ks, hkeys, hks⟩ := ih h2
          refine ⟨readsEq_trans hrd hrd2, ks, hkeys, ?_⟩
          intro k hk
          obtain ⟨c2, hc2, s2, hs2, hk2, ho2, hn2⟩ := hks k hk
          exact ⟨c2, List.mem_cons_of_mem _ hc2, s2, (hrd.2.2.2 c2).symm.trans hs2,
            hk2, ho2, hn2⟩
        · rw [if_neg hsrt] at h2
          obtain ⟨hrd2, ks, hkeys, hks⟩ := ih h2
          rw [Bool.not_eq_true] at hsrt
          refine ⟨readsEq_trans hrd hrd2, s.data :: ks, by simpa using hkeys, ?_⟩
          intro k hk
          rcases List.mem_cons.mp hk with hk | hk
          · subst hk
            refine ⟨c, by simp, s, ?_, rfl, ho, hsrt⟩
            rw [hpair]
          · obtain ⟨c2, hc2, s2, hs2, hk2, ho2, hn2⟩ := hks k hk
            exact ⟨c2, List.mem_cons_of_mem _ hc2, s2, (hrd.2.2.2 c2).symm.trans hs2,
              hk2, ho2, hn2⟩
      · rw [Bool.not_eq_true] at ho
        rw [ho] at h2
        cases h2

theorem sorterLoop_ok :
    ∀ {cs : List String} {t : Table} {acc : List (List Val)},
      (∀ c ∈ cs, ∃ s, (t.column c).1 = some s ∧ s.elemTy.orderable = true) →
      ∃ t' keys, sorterLoop t cs acc = .ok (t', keys) := by
  intro cs
  induction cs with
  | nil =>
    intro t acc _
    exact ⟨t, acc, rfl⟩
  | cons c rest ih =>
    intro t acc hcs
    obtain ⟨s, hs, ho⟩ := hcs c (by simp)
    rcases hpair : t.column c with ⟨o, t1⟩
    have ho2 : o = some s := by
      rw [hpair] at hs
      exact hs
    subst ho2
    have hrd : readsEq t t1 := by
      have := readsEq_column t c
      rw [hpair] at this
      exact this
    have hrest : ∀ c2 ∈ rest, ∃ s2, (t1.column c2).1 = some s2 ∧ s2.elemTy.orderable = true := by
      intro c2 hc2
      obtain ⟨s2, hs2, ho2⟩ := hcs c2 (List.mem_cons_of_mem _ hc2)
      exact ⟨s2, (hrd.2.2.2 c2).trans hs2, ho2⟩
    rw [sorterLoop_cons, hpair]
    show ∃ t' keys,
      (if s.elemTy.orderable then
        (if isSortedSeq s.data then sorterLoop t1 rest acc
         else sorterLoop t1 rest (acc ++ [s.data]))
        else .error (.unorderable c s.elemTy)) = Except.ok (t', keys)
    rw [if_pos ho]
    by_cases hsrt : isSortedSeq s.data = true
    · rw [if_pos hsrt]
      exact ih hrest
    · rw [if_neg hsrt]
      exact ih hrest

end GoGG

namespace GoGG

theorem Table.ext2 {t1 t2 : Table} (h1 : t1.cols = t2.cols) (h2 : t1.consts = t2.consts)
    (h3 : t1.colNames = t2.colNames) (h4 : t1.len = t2.len) : t1 = t2 := by
  cases t1
  cases t2
  simp_all

theorem rebuild_id {α : Type} :
    ∀ {l : List (String × α)}, (l.map Prod.fst).Nodup →
      (l.map Prod.fst).filterMap (fun n => (alook l n).map (fun c => (n, c))) = l := by
  intro l
  induction l with
  | nil =>
    intro _
    rfl
  | cons p rest ih =>
    intro hnd
    simp only [List.map_cons, List.nodup_cons] at hnd
    rw [List.map_cons, List.filterMap_cons]
    have hp : alook (p :: rest) p.1 = some p.2 := by
      show (if p.1 = p.1 then some p.2 else alook rest p.1) = some p.2
      rw [if_pos rfl]
    rw [hp]
    have hcong : (rest.map Prod.fst).filterMap
        (fun n => (alook (p :: rest) n).map (fun c => (n, c))) =
        (rest.map Prod.fst).filterMap (fun n => (alook rest n).map (fun c => (n, c))) := by
      apply List.filterMap_congr
      intro n hn
      have hne : p.1 ≠ n := by
        intro he
        exact hnd.1 (he ▸ hn)
      show ((if p.1 = n then some p.2 else alook rest n)).map _ = _
      rw [if_neg hne]
    rw [Option.map_some']
    rw [hcong, ih hnd.2]

theorem cloneSans_id {t : Table} (hconsts : t.consts = [])
    (hcn : t.colNames = t.cols.map Prod.fst) (hnd : (t.cols.map Prod.fst).Nodup)
    {m : String} (hm : m ∉ t.colNames) : t.cloneSans m = t := by
  have hfil : t.colNames.filter (fun x => x ≠ m) = t.colNames := filter_ne_of_not_mem hm
  refine Table.ext2 ?_ ?_ ?_ rfl
  · show (t.colNames.filter (fun n => n ≠ m)).filterMap
        (fun n => (alook t.cols n).map (fun c => (n, c))) = t.cols
    rw [hfil, hcn, rebuild_id hnd]
  · show (t.colNames.filter (fun n => n ≠ m)).filterMap
        (fun n => (alook t.consts n).map (fun cv => (n, cv))) = t.consts
    rw [hconsts]
    simp [alook]
  · exact hfil

theorem add_fresh_step {nt : Table} {m : String} {d : Slc} {L : Nat}
    (hconsts : nt.consts = []) (hcn : nt.colNames = nt.cols.map Prod.fst)
    (hnd : (nt.cols.map Prod.fst).Nodup) (hm : m ∉ nt.colNames)
    (hdl : d.data.length = L) (hlen : nt.cols = [] ∨ nt.len = L) :
    nt.add m (some d) = .ok ⟨nt.cols ++ [(m, d)], [], nt.colNames ++ [m], L⟩ := by
  have hcs : nt.cloneSans m = nt := cloneSans_id hconsts hcn hnd hm
  rw [add_some_eq]
  unfold addFresh
  rw [hcs]
  by_cases he : nt.cols.isEmpty = true
  · rw [if_pos he, hconsts, hdl]
  · rw [if_neg he]
    have hL : nt.len = L := by
      rcases hlen with h0 | h0
      · exact absurd (List.isEmpty_iff.mpr h0) he
      · exact h0
    rw [if_neg (by rw [hL, ← hdl]; exact fun hk => hk rfl), hconsts, hL]

/-- One unfolding step of the column-permuting loop. -/
theorem permuteAll_cons (perm : List Nat) (name : String) (rest : List String)
    (t nt : Table) :
    permuteAll perm (name :: rest) t nt =
      (match t.column name with
       | (none, _) => .error (.unknownColumn name)
       | (some s, t1) =>
         match nt.add name (some (multiIndex s perm)) with
         | .ok nt1 => permuteAll perm rest t1 nt1
         | .error e => .error e) := rfl

theorem permuteAll_go {perm : List Nat} {L : Nat} (hpl : perm.length = L) :
    ∀ (names : List String) (t nt : Table),
      names.Nodup →
      (∀ m ∈ names, ∃ s, (t.column m).1 = some s ∧ s.data.length = L) →
      nt.consts = [] → nt.colNames = nt.cols.map Prod.fst →
      (nt.cols.map Prod.fst).Nodup →
      (∀ p ∈ nt.cols, p.1 ∉ names) →
      (nt.cols = [] ∨ nt.len = L) →
      ∃ ntf, permuteAll perm names t nt = .ok ntf ∧
        ntf.consts = [] ∧
        ntf.colNames = nt.colNames ++ names ∧
        ntf.cols = nt.cols ++ names.map (fun m =>
          (m, multiIndex (((t.column m).1).getD ⟨Ty.int, []⟩) perm)) ∧
        (names = [] → ntf = nt) ∧ (names ≠ [] → ntf.len = L) := by
  intro names
  induction names with
  | nil =>
    intro t nt _ _ hconsts _ _ _ _
    exact ⟨nt, rfl, hconsts, by simp, by simp, fun _ => rfl, fun h => absurd rfl h⟩
  | cons m rest ih =>
    intro t nt hnd hcol hconsts hcn hndc hp hlen
    obtain ⟨s, hs, hsl⟩ := hcol m (by simp)
    rcases hpair : t.column m with ⟨o, t1⟩
    have ho2 : o = some s := by
      rw [hpair] at hs
      exact hs
    subst ho2
    have hrd : readsEq t t1 := by
      have := readsEq_column t m
      rw [hpair] at this
      exact this
    simp only [List.nodup_cons] at hnd
    have hm : m ∉ nt.colNames := by
      rw [hcn]
      intro hmem
      obtain ⟨p, hpm, hpe⟩ := List.mem_map.mp hmem
      exact hp p hpm (hpe ▸ List.mem_cons_self m rest)
    have hd : (multiIndex s perm).data.length = L := by
      show (perm.map _).length = L
      rw [List.length_map, hpl]
    have hadd := add_fresh_step hconsts hcn hndc hm hd hlen
    have hred : permuteAll perm (m :: rest) t nt =
        permuteAll perm rest t1
          ⟨nt.cols ++ [(m, multiIndex s perm)], [], nt.colNames ++ [m], L⟩ := by
      rw [permuteAll_cons, hpair]
      show (match nt.add m (some (multiIndex s perm)) with
            | Except.ok nt1 => permuteAll perm rest t1 nt1
            | Except.error e => Except.error e) = _
      rw [hadd]
    rw [hred]
    have hstep : ∃ ntf, permuteAll perm rest t1
        ⟨nt.cols ++ [(m, multiIndex s perm)], [], nt.colNames ++ [m], L⟩ = .ok ntf ∧
        ntf.consts = [] ∧
        ntf.colNames = (nt.colNames ++ [m]) ++ rest ∧
        ntf.cols = (nt.cols ++ [(m, multiIndex s perm)]) ++ rest.map (fun m2 =>
          (m2, multiIndex (((t1.column m2).1).getD ⟨Ty.int, []⟩) perm)) ∧
        (rest = [] → ntf = ⟨nt.cols ++ [(m, multiIndex s perm)], [], nt.colNames ++ [m], L⟩) ∧
        (rest ≠ [] → ntf.len = L) := by
      apply ih t1
      · exact hnd.2
      · intro m2 hm2
        obtain ⟨s2, hs2, hsl2⟩ := hcol m2 (List.mem_cons_of_mem _ hm2)
        exact ⟨s2, (hrd.2.2.2 m2).trans hs2, hsl2⟩
      · rfl
      · show nt.colNames ++ [m] = (nt.cols ++ [(m, multiIndex s perm)]).map Prod.fst
        rw [List.map_append, hcn]
        rfl
      · show ((nt.cols ++ [(m, multiIndex s perm)]).map Prod.fst).Nodup
        rw [List.map_append]
        simp only [List.nodup_append, List.map_cons, List.map_nil, List.nodup_cons,
          List.not_mem_nil, not_false_iff, List.nodup_nil, and_true, true_and]
        refine ⟨hndc, ?_⟩
        intro a ha
        simp only [List.mem_singleton]
        intro he
        subst he
        rw [hcn] at hm
        exact hm ha
      · intro p hpm
        rcases List.mem_append.mp hpm with hpm | hpm
        · exact fun hc => hp p hpm (List.mem_cons_of_mem _ hc)
        · simp only [List.mem_singleton] at hpm
          subst hpm
          exact hnd.1
      · right
        rfl
    obtain ⟨ntf, heq, hc1, hc2, hc3, hc4, hc5⟩ := hstep
    refine ⟨ntf, heq, hc1, ?_, ?_, ?_, ?_⟩
    · rw [hc2, List.append_assoc]
      rfl
    · rw [hc3]
      have hmap : rest.map (fun m2 =>
          (m2, multiIndex (((t1.column m2).1).getD ⟨Ty.int, []⟩) perm)) =
          rest.map (fun m2 =>
          (m2, multiIndex (((t.column m2).1).getD ⟨Ty.int, []⟩) perm)) := by
        apply List.map_congr_left
        intro m2 _
        rw [hrd.2.2.2 m2]
      rw [hmap, List.append_assoc]
      have hhead : (t.column m).1.getD ⟨Ty.int, []⟩ = s := by
        rw [hpair]
        rfl
      rw [List.map_cons, hhead]
      rfl
    · intro hcon
      cases hcon
    · intro _
      rcases List.eq_nil_or_concat rest with hrest | _
      · subst hrest
        rw [hc4 rfl]
      · by_cases hr2 : rest = []
        · subst hr2
          rw [hc4 rfl]
        · exact hc5 hr2
  
end GoGG

namespace GoGG

/-- The value of a column, defaulting to an empty int slice (only used where
the column is known to exist). -/
def colv (t : Table) (m : String) : Slc := ((t.column m).1).getD ⟨Ty.int, []⟩

theorem sortGroup_eq (t : Table) (cols : List String) :
    sortGroup t cols =
      (match sorterLoop t cols [] with
       | .error e => .error e
       | .ok (t1, keys) =>
         if keys = [] then .ok t1
         else permuteAll (sortPermOf keys t1.len) t1.colNames t1 emptyTable) := rfl

theorem sortPermOf_length (keys : List (List Val)) (L : Nat) :
    (sortPermOf keys L).length = L := by
  unfold sortPermOf
  rw [insSort_length, List.length_range]

theorem sortPermOf_mem {keys : List (List Val)} {L x : Nat} (h : x ∈ sortPermOf keys L) :
    x < L := by
  unfold sortPermOf at h
  rw [mem_insSort, List.mem_range] at h
  exact h

theorem alook_map_keyed {α : Type} (names : List String) (f : String → α) (k : String) :
    alook (names.map (fun n => (n, f n))) k = if k ∈ names then some (f k) else none := by
  induction names with
  | nil => simp [alook]
  | cons n rest ih =>
    by_cases hk : n = k
    · subst hk
      simp [alook]
    · have hkn : ¬k = n := fun h => hk h.symm
      rw [List.map_cons]
      show (if n = k then some (f n) else alook (rest.map _) k) = _
      rw [if_neg hk, ih]
      simp [List.mem_cons, hkn]

theorem column_some_mem {t : Table} (hw : t.WF) {m : String} {s : Slc}
    (h : (t.column m).1 = some s) : m ∈ t.colNames := by
  by_contra hm
  rw [column_none_of_not_mem hw hm] at h
  cases h

/-- The permuted-group shape of `sortGroup`: when some sorters survive, the
output is a fresh all-regular table holding every column of `t` permuted by
`sortPermOf keys t.len`, in the original column order. -/
theorem sortGroup_permute_spec {t t1 : Table} {cols : List String} {keys : List (List Val)}
    (hw : t.WF) (hs : sorterLoop t cols [] = .ok (t1, keys)) (hk : keys ≠ []) :
    t.colNames ≠ [] ∧
    sortGroup t cols = .ok ⟨t.colNames.map (fun m =>
        (m, multiIndex (colv t m) (sortPermOf keys t.len))),
      [], t.colNames, t.len⟩ := by
  obtain ⟨hrd, ks, hkeys, hks⟩ := sorterLoop_spec hs
  have hnames : t.colNames ≠ [] := by
    rw [hkeys] at hk
    simp only [List.nil_append] at hk
    cases hksl : ks with
    | nil =>
      rw [hksl] at hk
      exact absurd rfl hk
    | cons k0 krest =>
      obtain ⟨c, -, s, hcs, -, -, -⟩ := hks k0 (by rw [hksl]; simp)
      intro hnil
      have := column_some_mem hw hcs
      rw [hnil] at this
      cases this
  refine ⟨hnames, ?_⟩
  rw [sortGroup_eq, hs]
  show (if keys = [] then Except.ok t1
        else permuteAll (sortPermOf keys t1.len) t1.colNames t1 emptyTable) = _
  rw [if_neg hk]
  have hpl : (sortPermOf keys t1.len).length = t.len := by
    rw [sortPermOf_length, hrd.1]
  obtain ⟨ntf, heq, hc1, hc2, hc3, -, hc5⟩ :=
    permuteAll_go hpl t1.colNames t1 emptyTable
      (by rw [hrd.2.1]; exact hw.nodupNames)
      (by
        intro m hm
        rw [hrd.2.1] at hm
        obtain ⟨s, hs2, hl2, -⟩ := wf_column_read hw hm
        exact ⟨s, (hrd.2.2.2 m).trans hs2, hl2⟩)
      rfl rfl (by simp [emptyTable]) (by intro p hp; cases hp) (Or.inl rfl)
  rw [heq]
  have hnames1 : t1.colNames = t.colNames := hrd.2.1
  have hperm : sortPermOf keys t1.len = sortPermOf keys t.len := by
    rw [hrd.1]
  refine congrArg Except.ok (Table.ext2 ?_ ?_ ?_ ?_)
  · rw [hc3]
    show List.map _ t1.colNames = _
    rw [hnames1]
    apply List.map_congr_left
    intro m _
    rw [hperm]
    show (m, multiIndex (((t1.column m).1).getD ⟨Ty.int, []⟩) _) = _
    rw [hrd.2.2.2 m]
    rfl
  · rw [hc1]
  · rw [hc2, hnames1]
    rfl
  · apply hc5
    rw [hnames1]
    exact hnames

end GoGG


namespace GoGG

theorem getD_replicate {L i : Nat} (v d : Val) (h : i < L) :
    (List.replicate L v).getD i d = v := by
  rw [List.getD_eq_getElem?_getD, List.getElem?_replicate, if_pos h]
  rfl

theorem multiIndex_replicate {L : Nat} {perm : List Nat} (v : Val) (ty : Ty)
    (hlen : perm.length = L) (hmem : ∀ x ∈ perm, x < L) :
    multiIndex ⟨ty, List.replicate L v⟩ perm = ⟨ty, List.replicate L v⟩ := by
  unfold multiIndex
  congr 1
  apply List.eq_replicate_iff.mpr
  constructor
  · rw [List.length_map, hlen]
  · intro b hb
    obtain ⟨x, hx, hbx⟩ := List.mem_map.mp hb
    rw [← hbx]
    exact getD_replicate v default (hmem x hx)

theorem map_getD_range (l : List Val) :
    (List.range l.length).map (fun i => l.getD i default) = l := by
  induction l with
  | nil => rfl
  | cons a tl ih =>
    show (List.range (tl.length + 1)).map (fun i => (a :: tl).getD i default) = a :: tl
    rw [List.range_succ_eq_map, List.map_cons, List.map_map]
    refine congrArg (List.cons a) ?_
    show (List.range tl.length).map ((fun i => (a :: tl).getD i default) ∘ (· + 1)) = tl
    have hf : ((fun i => (a :: tl).getD i default) ∘ (· + 1)) =
        (fun i => tl.getD i default) := by
      funext i
      rfl
    rw [hf, ih]

theorem multiIndex_range {s : Slc} {L : Nat} (h : s.data.length = L) :
    multiIndex s (List.range L) = s := by
  unfold multiIndex
  cases s with
  | mk ty dat =>
    simp only at h
    subst h
    rw [map_getD_range]

theorem pair_sublist_range {i j L : Nat} (hij : i < j) (hjL : j < L) :
    [i, j].Sublist (List.range L) := by
  have h1 : [i].Sublist (List.range j) :=
    List.singleton_sublist.mpr (List.mem_range.mpr hij)
  have h2 : ([i] ++ [j]).Sublist (List.range j ++ [j]) :=
    List.Sublist.append h1 (List.Sublist.refl [j])
  have h3 : List.range j ++ [j] = List.range (j + 1) := (List.range_succ j).symm
  rw [h3] at h2
  exact h2.trans (List.range_sublist.mpr hjL)

/-- Under the invariant, a constant column always reads as its expansion,
cached or not. -/
theorem wf_const_column {t : Table} (hw : t.WF) {n : String} {v : Val}
    (hv : alook t.consts n = some v) :
    (t.column n).1 = some ⟨v.ty, List.replicate t.len v⟩ := by
  rcases column_cases t n with ⟨c, hc, he⟩ | ⟨hc, cv, hv2, he⟩ | ⟨hc, hv2, he⟩
  · rw [he]
    have hcache : c = ⟨v.ty, List.replicate t.len v⟩ :=
      hw.cache (n, c) (alook_eq_some_mem hc) (n, v) (alook_eq_some_mem hv) rfl
    rw [hcache]
  · rw [he]
    rw [hv2] at hv
    cases hv
    rfl
  · rw [hv2] at hv
    cases hv

end GoGG

namespace GoGG

theorem sortGroupPerm_eq (t : Table) (cols : List String) :
    sortGroupPerm t cols =
      (match sorterLoop t cols [] with
       | .error _ => []
       | .ok (t1, keys) =>
         if keys = [] then List.range t1.len else sortPermOf keys t1.len) := rfl

/-- C10: when `SortBy` actually permutes a group (some sorter survives), the
output table has NO constant columns — every former constant was materialized
as a regular column — so `Const(name)` reports absent for every name, while
`Column(name)` still returns exactly the values it returned on the input
group (a constant's expansion is invariant under the permutation). -/
theorem C10_sortBy_materializes_constants {t t1 : Table} {cols : List String}
    {keys : List (List Val)}
    (hw : t.WF) (hs : sorterLoop t cols [] = .ok (t1, keys)) (hk : keys ≠ []) :
    ∃ nt, sortGroup t cols = .ok nt ∧
      (∀ n, nt.constVal n = none) ∧
      (∀ n v, t.constVal n = some v →
        nt.constVal n = none ∧ (nt.column n).1 = (t.column n).1) := by
  obtain ⟨hnames, heq⟩ := sortGroup_permute_spec hw hs hk
  refine ⟨_, heq, fun n => rfl, ?_⟩
  intro n v hv
  refine ⟨rfl, ?_⟩
  have hexp : (t.column n).1 = some ⟨v.ty, List.replicate t.len v⟩ :=
    wf_const_column hw hv
  have hmem : n ∈ t.colNames := hw.constsSub (n, v) (alook_eq_some_mem hv)
  rw [column_fst]
  show (match alook (t.colNames.map (fun m =>
      (m, multiIndex (colv t m) (sortPermOf keys t.len)))) n with
    | some c => some c
    | none => (alook ([] : List (String × Val)) n).map _) = (t.column n).1
  rw [alook_map_keyed, if_pos hmem]
  have hcv : colv t n = ⟨v.ty, List.replicate t.len v⟩ := by
    unfold colv
    rw [hexp]
    rfl
  rw [hcv, multiIndex_replicate v v.ty (sortPermOf_length keys t.len)
    (fun x hx => sortPermOf_mem hx), hexp]

/-- C4: `SortBy` is stable.  Whenever `sortGroup` succeeds on a group, the
rows of the output are the input rows permuted by `sortGroupPerm` (each
column's output value is the input value selected through that single
permutation), and any two row positions `i < j` whose values agree on every
named sort column appear in the permutation with `i` still before `j`. -/
theorem C4_sortBy_stable {t nt : Table} {cols : List String}
    (hw : t.WF) (hso : sortGroup t cols = .ok nt) {i j : Nat}
    (hij : i < j) (hjl : j < t.len)
    (htie : ∀ c ∈ cols, ((t.column c).1).map (fun s => s.data.getD i default) =
        ((t.column c).1).map (fun s => s.data.getD j default)) :
    [i, j].Sublist (sortGroupPerm t cols) ∧
    (∀ m s, (t.column m).1 = some s →
      (nt.column m).1 = some (multiIndex s (sortGroupPerm t cols))) := by
  cases hsl : sorterLoop t cols [] with
  | error e =>
    rw [sortGroup_eq, hsl] at hso
    cases hso
  | ok pr =>
    obtain ⟨t1, keys⟩ := pr
    obtain ⟨hrd, ks, hkeys, hks⟩ := sorterLoop_spec hsl
    have hperm : sortGroupPerm t cols =
        (if keys = [] then List.range t1.len else sortPermOf keys t1.len) := by
      rw [sortGroupPerm_eq, hsl]
    by_cases hke : keys = []
    · -- pass-through: the identity permutation
      rw [sortGroup_eq, hsl] at hso
      have hso2 : (if keys = [] then Except.ok t1
          else permuteAll (sortPermOf keys t1.len) t1.colNames t1 emptyTable) =
          Except.ok nt := hso
      rw [if_pos hke] at hso2
      cases hso2
      rw [hperm, if_pos hke, hrd.1]
      refine ⟨pair_sublist_range hij hjl, ?_⟩
      intro m s hms
      have hmem : m ∈ t.colNames := column_some_mem hw hms
      obtain ⟨s2, hs2, hl2, -⟩ := wf_column_read hw hmem
      rw [hms] at hs2
      cases hs2
      rw [hrd.2.2.2 m, hms, multiIndex_range hl2]
    · -- permuted case
      obtain ⟨hnames, heq⟩ := sortGroup_permute_spec hw hsl hke
      rw [heq] at hso
      cases hso
      have htiek : ∀ k ∈ keys, k.getD i default = k.getD j default := by
        intro k hk2
        rw [hkeys, List.nil_append] at hk2
        obtain ⟨c, hc, s, hcs, hkd, -, -⟩ := hks k hk2
        have := htie c hc
        rw [hcs] at this
        simp only [Option.map_some', Option.some.injEq] at this
        rw [hkd]
        exact this
      have hle : (fun a b => !(permSortLessB keys b a)) i j = true := by
        have hfalse : permSortLessB keys j i = false :=
          permSortLessB_tie (fun k hk2 => (htiek k hk2).symm)
        simp [hfalse]
      rw [hperm, if_neg hke, hrd.1]
      constructor
      · exact insSort_stable_pair (pair_sublist_range hij hjl) hle
      · intro m s hms
        have hmem : m ∈ t.colNames := column_some_mem hw hms
        rw [column_fst]
        show (match alook (t.colNames.map (fun m2 =>
            (m2, multiIndex (colv t m2) (sortPermOf keys t.len)))) m with
          | some c => some c
          | none => (alook ([] : List (String × Val)) m).map _) = _
        rw [alook_map_keyed, if_pos hmem]
        have hcv : colv t m = s := by
          unfold colv
          rw [hms]
          rfl
        rw [hcv]

end GoGG

namespace GoGG

/-- A group with the unsorted column `x = [2, 1]` and the constant `c = 5`. -/
def tXC : Table := ⟨[("x", ⟨.int, [.int 2, .int 1]⟩)], [("c", .int 5)], ["x", "c"], 2⟩

theorem tXC_wf : tXC.WF := by
  refine ⟨?_, ?_, ?_, ?_, ?_, ?_, ?_, ?_, ?_, ?_⟩ <;> decide

/-- A group with the unsorted column `k = [5, 3, 3]`, whose last two rows tie. -/
def tK533 : Table := ⟨[("k", ⟨.int, [.int 5, .int 3, .int 3]⟩)], [], ["k"], 3⟩

theorem tK533_wf : tK533.WF := by
  refine ⟨?_, ?_, ?_, ?_, ?_, ?_, ?_, ?_, ?_, ?_⟩ <;> decide

/-- Witness for C10 at `tXC`, sorting by `x`. -/
theorem C10_sortBy_materializes_constants_witness :
    tXC.WF ∧
    sorterLoop tXC ["x"] [] = .ok (tXC, [[Val.int 2, Val.int 1]]) ∧
    ([[Val.int 2, Val.int 1]] : List (List Val)) ≠ [] ∧
    (∃ nt, sortGroup tXC ["x"] = .ok nt ∧
      (∀ n, nt.constVal n = none) ∧
      (∀ n v, tXC.constVal n = some v →
        nt.constVal n = none ∧ (nt.column n).1 = (tXC.column n).1)) := by
  have h1 : sorterLoop tXC ["x"] [] = .ok (tXC, [[Val.int 2, Val.int 1]]) := by decide
  exact ⟨tXC_wf, h1, by decide,
    C10_sortBy_materializes_constants tXC_wf h1 (by decide)⟩

/-- Witness for C4 at `tK533`, sorting by `k`, for the tied rows 1 and 2. -/
theorem C4_sortBy_stable_witness :
    tK533.WF ∧
    sortGroup tK533 ["k"] =
      .ok ⟨[("k", ⟨.int, [.int 3, .int 3, .int 5]⟩)], [], ["k"], 3⟩ ∧
    (1 : Nat) < 2 ∧ (2 : Nat) < tK533.len ∧
    (∀ c ∈ ["k"], ((tK533.column c).1).map (fun s => s.data.getD 1 default) =
        ((tK533.column c).1).map (fun s => s.data.getD 2 default)) ∧
    ([1, 2].Sublist (sortGroupPerm tK533 ["k"]) ∧
     (∀ m s, (tK533.column m).1 = some s →
       ((⟨[("k", ⟨.int, [.int 3, .int 3, .int 5]⟩)], [], ["k"], 3⟩ : Table).column m).1 =
         some (multiIndex s (sortGroupPerm tK533 ["k"])))) := by
  have hso : sortGroup tK533 ["k"] =
      .ok ⟨[("k", ⟨.int, [.int 3, .int 3, .int 5]⟩)], [], ["k"], 3⟩ := by decide
  refine ⟨tK533_wf, hso, by decide, by decide, by decide, ?_⟩
  exact C4_sortBy_stable tK533_wf hso (by decide) (by decide) (by decide)

end GoGG

namespace GoGG

theorem getD_mem_of_lt {l : List Val} {i : Nat} (d : Val) (h : i < l.length) :
    l.getD i d ∈ l := by
  rw [List.getD_eq_getElem?_getD, List.getElem?_eq_getElem h]
  exact List.getElem_mem h

/-- Sorting the identity permutation by a single homogeneous orderable key
leaves that key's permuted values in nondecreasing order. -/
theorem sorted_single_perm {s : Slc} {L : Nat} (hl : s.data.length = L)
    (hwf : SlcWF s) (ho : s.elemTy.orderable = true) :
    isSortedSeq (multiIndex s (sortPermOf [s.data] L)).data = true := by
  have htot : ∀ a b, (fun i j => !(permSortLessB [s.data] j i)) a b = true ∨
      (fun i j => !(permSortLessB [s.data] j i)) b a = true := by
    intro a b
    by_cases hc : permSortLessB [s.data] b a = true
    · right
      have := permSortLessB_asymm hc
      simp [this]
    · left
      rw [Bool.not_eq_true] at hc
      simp [hc]
  have htr : ∀ a b c, a < L → b < L → c < L →
      (fun i j => !(permSortLessB [s.data] j i)) a b = true →
      (fun i j => !(permSortLessB [s.data] j i)) b c = true →
      (fun i j => !(permSortLessB [s.data] j i)) a c = true := by
    intro a b c ha hb hc h1 h2
    have hma : s.data.getD a default ∈ s.data := getD_mem_of_lt default (by omega)
    have hmb : s.data.getD b default ∈ s.data := getD_mem_of_lt default (by omega)
    have hmc : s.data.getD c default ∈ s.data := getD_mem_of_lt default (by omega)
    have h1b : Bool.not (permSortLessB [s.data] b a) = true := h1
    have h2b : Bool.not (permSortLessB [s.data] c b) = true := h2
    rw [Bool.not_eq_true'] at h1b h2b
    have h1v : Val.lt (s.data.getD b default) (s.data.getD a default) = false := h1b
    have h2v : Val.lt (s.data.getD c default) (s.data.getD b default) = false := h2b
    have h3v : Val.lt (s.data.getD c default) (s.data.getD a default) = false :=
      val_le_trans ((hwf _ hma).trans (hwf _ hmb).symm)
        ((hwf _ hmb).trans (hwf _ hmc).symm)
        ((hwf _ hma).symm ▸ ho) h1v h2v
    have h4 : permSortLessB [s.data] c a = false := h3v
    show Bool.not (permSortLessB [s.data] c a) = true
    rw [h4]
    rfl
  have hpw : (sortPermOf [s.data] L).Pairwise
      (fun a b => (fun i j => !(permSortLessB [s.data] j i)) a b = true) := by
    apply pairwise_insSort htot htr
    intro y hy
    exact List.mem_range.mp hy
  apply isSortedSeq_of_pairwise
  show ((sortPermOf [s.data] L).map (fun i => s.data.getD i default)).Pairwise
      (fun a b => Val.lt b a = false)
  apply List.Pairwise.map
  · intro a b hab
    have hab2 : Bool.not (permSortLessB [s.data] b a) = true := hab
    rw [Bool.not_eq_true'] at hab2
    exact hab2
  · exact hpw

theorem sorterLoop_single {t : Table} {k : String} {t1 : Table} {keys : List (List Val)}
    (h : sorterLoop t [k] [] = .ok (t1, keys)) :
    ∃ s, t.column k = (some s, t1) ∧ s.elemTy.orderable = true ∧
      ((isSortedSeq s.data = true ∧ keys = []) ∨
       (isSortedSeq s.data = false ∧ keys = [s.data])) := by
  rw [sorterLoop_cons] at h
  rcases hpair : t.column k with ⟨o, t1c⟩
  rw [hpair] at h
  cases o with
  | none => cases h
  | some s =>
    have h2 : (if s.elemTy.orderable then
        (if isSortedSeq s.data then sorterLoop t1c [] []
         else sorterLoop t1c [] ([] ++ [s.data]))
        else .error (.unorderable k s.elemTy)) = Except.ok (t1, keys) := h
    by_cases ho : s.elemTy.orderable = true
    · rw [if_pos ho] at h2
      by_cases hsrt : isSortedSeq s.data = true
      · rw [if_pos hsrt] at h2
        have h3 : (Except.ok (t1c, []) : Except TErr (Table × List (List Val))) =
            .ok (t1, keys) := h2
        cases h3
        exact ⟨s, rfl, ho, Or.inl ⟨hsrt, rfl⟩⟩
      · rw [if_neg hsrt] at h2
        have h3 : (Except.ok (t1c, [s.data]) : Except TErr (Table × List (List Val))) =
            .ok (t1, keys) := h2
        cases h3
        rw [Bool.not_eq_true] at hsrt
        exact ⟨s, rfl, ho, Or.inr ⟨hsrt, rfl⟩⟩
    · rw [Bool.not_eq_true] at ho
      rw [ho] at h2
      cases h2

end GoGG

namespace GoGG

theorem filter_ne_keys {κ : Type} [DecidableEq κ] {l : List κ} {n : κ} (hn : n ∉ l) :
    l.filter (fun x => x ≠ n) = l := by
  apply List.filter_eq_self.mpr
  intro a ha
  simp only [ne_eq, decide_not, Bool.not_eq_true', decide_eq_false_iff_not]
  intro he
  exact hn (he ▸ ha)

theorem rebuild_id2 {κ α : Type} [DecidableEq κ] :
    ∀ {l : List (κ × α)}, (l.map Prod.fst).Nodup →
      (l.map Prod.fst).filterMap (fun n => (alook l n).map (fun c => (n, c))) = l := by
  intro l
  induction l with
  | nil =>
    intro _
    rfl
  | cons p rest ih =>
    intro hnd
    simp only [List.map_cons, List.nodup_cons] at hnd
    rw [List.map_cons, List.filterMap_cons]
    have hp : alook (p :: rest) p.1 = some p.2 := by
      show (if p.1 = p.1 then some p.2 else alook rest p.1) = some p.2
      rw [if_pos rfl]
    rw [hp]
    have hcong : (rest.map Prod.fst).filterMap
        (fun n => (alook (p :: rest) n).map (fun c => (n, c))) =
        (rest.map Prod.fst).filterMap (fun n => (alook rest n).map (fun c => (n, c))) := by
      apply List.filterMap_congr
      intro n hn
      have hne : p.1 ≠ n := by
        intro he
        exact hnd.1 (he ▸ hn)
      show ((if p.1 = n then some p.2 else alook rest n)).map _ = _
      rw [if_neg hne]
    rw [Option.map_some']
    rw [hcong, ih hnd.2]

/-- The sequence of `out.AddTable(gid, nt)` calls `SortBy` issues while
accumulating its output Grouping, abstracted over the list of pushed pairs. -/
def pushList : Grouping → List (Nat × Table) → Except TErr Grouping
  | out, [] => .ok out
  | out, p :: rest =>
    match out.addTable p.1 (some p.2) with
    | .error e => .error e
    | .ok out1 => pushList out1 rest

/-- The Grouping the accumulation reaches after pushing `ps` (for duplicate-free
group ids and non-empty tables): still a plain `*Table` after a single push
under the root group id, a `groupedTable` otherwise. -/
def outOf : List (Nat × Table) → Grouping
  | [] => .table emptyTable
  | (gid, nt) :: rest =>
    if rest = [] ∧ gid = rootGID then .table nt
    else .grouped ⟨(gid, nt) :: rest, gid :: rest.map Prod.fst, nt.colNames⟩

/-- The pushed pairs carry duplicate-free group ids and non-empty tables. -/
def GoodPs (ps : List (Nat × Table)) : Prop :=
  (ps.map Prod.fst).Nodup ∧ ∀ p ∈ ps, ¬p.2.colNames = []

theorem pushList_cons (out : Grouping) (p : Nat × Table) (rest : List (Nat × Table)) :
    pushList out (p :: rest) =
      (match out.addTable p.1 (some p.2) with
       | .error e => .error e
       | .ok out1 => pushList out1 rest) := rfl

theorem sortByLoop_cons (g : Grouping) (cols : List String) (gid : Nat)
    (rest : List Nat) (out : Grouping) :
    sortByLoop g cols (gid :: rest) out =
      (match g.tableAt gid with
       | none => .error (.nilGroupTable gid)
       | some t =>
         match sortGroup t cols with
         | .error e => .error e
         | .ok nt =>
           match out.addTable gid (some nt) with
           | .error e => .error e
           | .ok out1 => sortByLoop g cols rest out1) := rfl

/-- Zero sort columns: the per-group body returns the group unchanged. -/
theorem sortGroup_nil (t : Table) : sortGroup t [] = .ok t := rfl

end GoGG

namespace GoGG

/-- A group all of whose sort columns are already sorted is passed through:
`sortGroup` succeeds and returns the same observable Table (in Go, the very
same `*Table`; the model also records the memoized constant expansions). -/
theorem sortGroup_pass {t : Table} {cols : List String}
    (hcols : ∀ c ∈ cols, ∃ s, (t.column c).1 = some s ∧
      s.elemTy.orderable = true ∧ isSortedSeq s.data = true) :
    ∃ t1, sortGroup t cols = .ok t1 ∧ obsEqT t1 t := by
  obtain ⟨t1, keys, hsl⟩ := @sorterLoop_ok cols t [] (fun c hc => by
    obtain ⟨s, hs, ho, -⟩ := hcols c hc
    exact ⟨s, hs, ho⟩)
  obtain ⟨hrd, ks, hkeys, hks⟩ := sorterLoop_spec hsl
  have hksnil : ks = [] := by
    cases hksl : ks with
    | nil => rfl
    | cons k0 krest =>
      obtain ⟨c, hc, s, hcs, -, -, hnsort⟩ := hks k0 (by rw [hksl]; simp)
      obtain ⟨s', hs', -, hsort⟩ := hcols c hc
      rw [hcs] at hs'
      cases hs'
      rw [hsort] at hnsort
      cases hnsort
  have hknil : keys = [] := by
    rw [hkeys, hksnil]
    rfl
  refine ⟨t1, ?_, readsEq_obsEqT hrd⟩
  rw [sortGroup_eq, hsl]
  show (if keys = [] then Except.ok t1
        else permuteAll (sortPermOf keys t1.len) t1.colNames t1 emptyTable) = _
  rw [if_pos hknil]

/-- In particular a zero-row or single-row group is always already sorted,
hence passed through. -/
theorem sortGroup_short_pass {t : Table} {cols : List String} (hw : t.WF)
    (hlen : t.len ≤ 1)
    (hcols : ∀ c ∈ cols, ∃ s, (t.column c).1 = some s ∧ s.elemTy.orderable = true) :
    ∃ t1, sortGroup t cols = .ok t1 ∧ obsEqT t1 t := by
  apply sortGroup_pass
  intro c hc
  obtain ⟨s, hs, ho⟩ := hcols c hc
  obtain ⟨s', hs', hl', -⟩ := wf_column_read hw (column_some_mem hw hs)
  rw [hs] at hs'
  cases hs'
  exact ⟨s, hs, ho, isSortedSeq_short (hl' ▸ hlen)⟩

end GoGG

namespace GoGG

/-- Single-column sorting reaches a fixed point in one step: the table
`sortGroup t [k]` produces is passed through unchanged (as the very same
table value) by a second `sortGroup · [k]`, and it has a non-empty schema. -/
theorem sortGroup_fix {t nt : Table} {k : String} (hw : t.WF)
    (h : sortGroup t [k] = .ok nt) :
    sortGroup nt [k] = .ok nt ∧ ¬nt.colNames = [] := by
  cases hs : sorterLoop t [k] [] with
  | error e =>
    rw [sortGroup_eq, hs] at h
    have h2 : (Except.error e : Except TErr Table) = .ok nt := h
    cases h2
  | ok p =>
    obtain ⟨t1, keys⟩ := p
    obtain ⟨s, hcol, ho, hcase⟩ := sorterLoop_single hs
    have hc1 : (t.column k).1 = some s := by rw [hcol]
    have hkmem : k ∈ t.colNames := column_some_mem hw hc1
    rcases hcase with ⟨hsort, hknil⟩ | ⟨hnsort, hkone⟩
    · subst hknil
      rw [sortGroup_eq, hs] at h
      have h2 : (if ([] : List (List Val)) = [] then Except.ok t1
          else permuteAll (sortPermOf [] t1.len) t1.colNames t1 emptyTable) =
            Except.ok nt := h
      rw [if_pos rfl] at h2
      have hnt1 : t1 = nt := Except.ok.inj h2
      rw [← hnt1]
      have hrd : readsEq t t1 := by
        have h3 := readsEq_column t k
        rw [hcol] at h3
        exact h3
      have hcol1 : t1.column k = (some s, t1) := by
        have h4 := column_idem t k
        rw [hcol] at h4
        exact h4
      have hsl1 : sorterLoop t1 [k] [] = .ok (t1, []) := by
        rw [sorterLoop_cons, hcol1]
        show (if s.elemTy.orderable then
              (if isSortedSeq s.data then sorterLoop t1 [] []
               else sorterLoop t1 [] ([] ++ [s.data]))
              else .error (.unorderable k s.elemTy)) = Except.ok (t1, [])
        rw [if_pos ho, if_pos hsort]
        rfl
      constructor
      · rw [sortGroup_eq, hsl1]
        show (if ([] : List (List Val)) = [] then Except.ok t1
              else permuteAll (sortPermOf [] t1.len) t1.colNames t1 emptyTable) =
                Except.ok t1
        rw [if_pos rfl]
      · rw [hrd.2.1]
        intro hnil
        rw [hnil] at hkmem
        cases hkmem
    · subst hkone
      obtain ⟨hnames, hperm⟩ := sortGroup_permute_spec hw hs (by simp)
      rw [h] at hperm
      have hnt : nt = ⟨t.colNames.map (fun m =>
          (m, multiIndex (colv t m) (sortPermOf [s.data] t.len))),
          [], t.colNames, t.len⟩ := Except.ok.inj hperm
      obtain ⟨s', hs', hl', hwf'⟩ := wf_column_read hw hkmem
      rw [hc1] at hs'
      cases hs'
      have hsv : colv t k = s := by
        unfold colv
        rw [hc1]
        rfl
      have hsorted : isSortedSeq (multiIndex s (sortPermOf [s.data] t.len)).data = true :=
        sorted_single_perm hl' hwf' ho
      have halook : alook (Table.mk (t.colNames.map (fun m =>
          (m, multiIndex (colv t m) (sortPermOf [s.data] t.len))))
          [] t.colNames t.len).cols k =
          some (multiIndex (colv t k) (sortPermOf [s.data] t.len)) := by
        show alook (t.colNames.map (fun m =>
          (m, multiIndex (colv t m) (sortPermOf [s.data] t.len)))) k = _
        rw [alook_map_keyed, if_pos hkmem]
      have hcolN : (Table.mk (t.colNames.map (fun m =>
          (m, multiIndex (colv t m) (sortPermOf [s.data] t.len))))
          [] t.colNames t.len).column k =
          (some (multiIndex (colv t k) (sortPermOf [s.data] t.len)),
           Table.mk (t.colNames.map (fun m =>
            (m, multiIndex (colv t m) (sortPermOf [s.data] t.len))))
            [] t.colNames t.len) := by
        unfold Table.column
        rw [halook]
      rw [hsv] at hcolN
      have hslN : sorterLoop (Table.mk (t.colNames.map (fun m =>
          (m, multiIndex (colv t m) (sortPermOf [s.data] t.len))))
          [] t.colNames t.len) [k] [] =
          .ok (Table.mk (t.colNames.map (fun m =>
            (m, multiIndex (colv t m) (sortPermOf [s.data] t.len))))
            [] t.colNames t.len, []) := by
        rw [sorterLoop_cons, hcolN]
        show (if (multiIndex s (sortPermOf [s.data] t.len)).elemTy.orderable then
              (if isSortedSeq (multiIndex s (sortPermOf [s.data] t.len)).data then
                sorterLoop _ [] []
               else sorterLoop _ [] ([] ++ [(multiIndex s (sortPermOf [s.data] t.len)).data]))
              else .error (.unorderable k
                (multiIndex s (sortPermOf [s.data] t.len)).elemTy)) = _
        have ho2 : (multiIndex s (sortPermOf [s.data] t.len)).elemTy.orderable = true := ho
        rw [if_pos ho2, if_pos hsorted]
        rfl
      constructor
      · rw [hnt, sortGroup_eq, hslN]
        show (if ([] : List (List Val)) = [] then _ else _) = _
        rw [if_pos rfl]
      · rw [hnt]
        show ¬t.colNames = []
        exact hnames

end GoGG

namespace GoGG

theorem addTable_table_some (t t2 : Table) (gid : Nat) :
    Grouping.addTable (.table t) gid (some t2) =
      (if t2.colNames = [] then .ok (.table t)
       else if gid = rootGID then .ok (.table t2)
       else
         match (GroupedTable.mk [] [] []).addT rootGID (some t) with
         | .error e => .error e
         | .ok g1 =>
           match g1.addT gid (some t2) with
           | .error e => .error e
           | .ok g2 => .ok (.grouped g2)) := rfl

theorem addTable_grouped_eq (g : GroupedTable) (gid : Nat) (t? : Option Table) :
    Grouping.addTable (.grouped g) gid t? =
      (match g.addT gid t? with
       | .error e => .error e
       | .ok g2 => .ok (.grouped g2)) := rfl

/-- Adding a non-empty table to the empty grouped table binds it as the only
group and establishes its schema. -/
theorem addT_empty_gt {t : Table} (ht : ¬t.colNames = []) (gid : Nat) :
    (GroupedTable.mk [] [] []).addT gid (some t) =
      .ok ⟨[(gid, t)], [gid], t.colNames⟩ := by
  show (if t.colNames = [] then Except.ok (GroupedTable.mk [] [] [])
        else
          if ((GroupedTable.mk [] [] []).evict gid).groups = [] then
            Except.ok ⟨((GroupedTable.mk [] [] []).evict gid).tables ++ [(gid, t)],
                       ((GroupedTable.mk [] [] []).evict gid).groups ++ [gid], t.colNames⟩
          else
            match checkColsT ((alook ((GroupedTable.mk [] [] []).evict gid).tables
                (((GroupedTable.mk [] [] []).evict gid).groups.headD 0)).getD emptyTable) t
                ((GroupedTable.mk [] [] []).evict gid).colNames with
            | some e => Except.error e
            | none =>
              match extraCheck t ((GroupedTable.mk [] [] []).evict gid).colNames with
              | some e => Except.error e
              | none =>
                Except.ok ⟨((GroupedTable.mk [] [] []).evict gid).tables ++ [(gid, t)],
                           ((GroupedTable.mk [] [] []).evict gid).groups ++ [gid],
                           ((GroupedTable.mk [] [] []).evict gid).colNames⟩) = _
  rw [if_neg ht]
  have hev : (GroupedTable.mk [] [] []).evict gid = ⟨[], [], []⟩ := rfl
  rw [hev]
  rfl

/-- Evicting a group id that is not bound leaves a canonical grouped table
unchanged. -/
theorem evict_fresh {ps : List (Nat × Table)} {cn : List String} {gid : Nat}
    (hnd : (ps.map Prod.fst).Nodup) (hgid : gid ∉ ps.map Prod.fst) :
    GroupedTable.evict ⟨ps, ps.map Prod.fst, cn⟩ gid = ⟨ps, ps.map Prod.fst, cn⟩ := by
  unfold GroupedTable.evict
  rw [filter_ne_keys hgid, rebuild_id2 hnd]

theorem goodPs_last_fresh {ps : List (Nat × Table)} {gid : Nat} {nt : Table}
    (h : GoodPs (ps ++ [(gid, nt)])) :
    gid ∉ ps.map Prod.fst ∧ (ps.map Prod.fst).Nodup := by
  have h1 := h.1
  rw [List.map_append] at h1
  rcases List.nodup_append.mp h1 with ⟨hn1, -, hdisj⟩
  exact ⟨fun hm => hdisj hm (by simp), hn1⟩

end GoGG

namespace GoGG

/-- One successful accumulation step of `SortBy`'s output: pushing a fresh
group id with a non-empty table moves `outOf ps` to `outOf (ps ++ [(gid, nt)])`. -/
theorem push_step {ps : List (Nat × Table)} {gid : Nat} {nt : Table} {out1 : Grouping}
    (hgood : GoodPs (ps ++ [(gid, nt)]))
    (h : (outOf ps).addTable gid (some nt) = .ok out1) :
    out1 = outOf (ps ++ [(gid, nt)]) := by
  have hnt : ¬nt.colNames = [] := hgood.2 (gid, nt) (by simp)
  obtain ⟨hgid, hnd⟩ := goodPs_last_fresh hgood
  cases ps with
  | nil =>
    rw [show outOf [] = Grouping.table emptyTable from rfl, addTable_table_some,
       if_neg hnt] at h
    by_cases hg : gid = rootGID
    · rw [if_pos hg] at h
      rw [← Except.ok.inj h]
      show Grouping.table nt =
        (if ([] : List (Nat × Table)) = [] ∧ gid = rootGID then Grouping.table nt
         else .grouped ⟨[(gid, nt)], gid :: ([] : List (Nat × Table)).map Prod.fst,
            nt.colNames⟩)
      rw [if_pos ⟨rfl, hg⟩]
    · rw [if_neg hg] at h
      have hp1 : (GroupedTable.mk [] [] []).addT rootGID (some emptyTable) =
          .ok ⟨[], [], []⟩ := rfl
      rw [hp1] at h
      have h2 : (match (GroupedTable.mk [] [] []).addT gid (some nt) with
         | .error e => Except.error e
         | .ok g2 => Except.ok (Grouping.grouped g2)) = Except.ok out1 := h
      rw [addT_empty_gt hnt gid] at h2
      have h3 : Except.ok (Grouping.grouped ⟨[(gid, nt)], [gid], nt.colNames⟩) =
          Except.ok out1 := h2
      rw [← Except.ok.inj h3]
      show Grouping.grouped ⟨[(gid, nt)], [gid], nt.colNames⟩ =
        (if ([] : List (Nat × Table)) = [] ∧ gid = rootGID then Grouping.table nt
         else .grouped ⟨[(gid, nt)], gid :: ([] : List (Nat × Table)).map Prod.fst,
            nt.colNames⟩)
      rw [if_neg (fun hc => hg hc.2)]
      rfl
  | cons p0 tl =>
    obtain ⟨g0, n0⟩ := p0
    have hn0 : ¬n0.colNames = [] := hgood.2 (g0, n0) (by simp)
    have hout : outOf ((g0, n0) :: tl) =
        (if tl = [] ∧ g0 = rootGID then Grouping.table n0
         else .grouped ⟨(g0, n0) :: tl, g0 :: tl.map Prod.fst, n0.colNames⟩) := rfl
    have houtA : outOf (((g0, n0) :: tl) ++ [(gid, nt)]) =
        Grouping.grouped ⟨(g0, n0) :: (tl ++ [(gid, nt)]),
          g0 :: (tl.map Prod.fst ++ [gid]), n0.colNames⟩ := by
      show (if tl ++ [(gid, nt)] = [] ∧ g0 = rootGID then Grouping.table n0
            else .grouped ⟨(g0, n0) :: (tl ++ [(gid, nt)]),
              g0 :: (tl ++ [(gid, nt)]).map Prod.fst, n0.colNames⟩) = _
      rw [if_neg (fun hc => by simpa using congrArg List.length hc.1), List.map_append]
      rfl
    by_cases hc : tl = [] ∧ g0 = rootGID
    · obtain ⟨htl, hg0⟩ := hc
      subst htl
      subst hg0
      rw [hout, if_pos ⟨rfl, rfl⟩, addTable_table_some, if_neg hnt] at h
      have hg : ¬gid = rootGID := by
        intro he
        apply hgid
        rw [he]
        simp
      rw [if_neg hg, addT_empty_gt hn0 rootGID] at h
      have h2 : (match (GroupedTable.mk [(rootGID, n0)] [rootGID] n0.colNames).addT gid
            (some nt) with
         | .error e => Except.error e
         | .ok g2 => Except.ok (Grouping.grouped g2)) = Except.ok out1 := h
      have hev : (GroupedTable.mk [(rootGID, n0)] [rootGID] n0.colNames).evict gid =
          ⟨[(rootGID, n0)], [rootGID], n0.colNames⟩ :=
        evict_fresh (by simp) hgid
      rw [addT_some_eq hnt (by rw [hev]; simp)] at h2
      rw [hev] at h2
      cases hchk : checkColsT ((GroupedTable.mk [(rootGID, n0)] [rootGID]
          n0.colNames).baseTable gid) nt n0.colNames with
      | some e =>
        rw [hchk] at h2
        cases h2
      | none =>
        rw [hchk] at h2
        cases hext : extraCheck nt n0.colNames with
        | some e =>
          rw [hext] at h2
          cases h2
        | none =>
          rw [hext] at h2
          have h3 : Except.ok (Grouping.grouped ⟨[(rootGID, n0)] ++ [(gid, nt)],
              [rootGID] ++ [gid], n0.colNames⟩) = Except.ok out1 := h2
          rw [← Except.ok.inj h3, houtA]
          rfl
    · rw [hout, if_neg hc, addTable_grouped_eq] at h
      have hev : (GroupedTable.mk ((g0, n0) :: tl) (g0 :: tl.map Prod.fst)
          n0.colNames).evict gid = ⟨(g0, n0) :: tl, g0 :: tl.map Prod.fst, n0.colNames⟩ :=
        evict_fresh hnd hgid
      rw [addT_some_eq hnt (by rw [hev]; simp)] at h
      rw [hev] at h
      cases hchk : checkColsT ((GroupedTable.mk ((g0, n0) :: tl) (g0 :: tl.map Prod.fst)
          n0.colNames).baseTable gid) nt n0.colNames with
      | some e =>
        rw [hchk] at h
        cases h
      | none =>
        rw [hchk] at h
        cases hext : extraCheck nt n0.colNames with
        | some e =>
          rw [hext] at h
          cases h
        | none =>
          rw [hext] at h
          have h3 : Except.ok (Grouping.grouped ⟨((g0, n0) :: tl) ++ [(gid, nt)],
              (g0 :: tl.map Prod.fst) ++ [gid], n0.colNames⟩) = Except.ok out1 := h
          rw [← Except.ok.inj h3, houtA]
          rfl

end GoGG

namespace GoGG

/-- `Tables` of the accumulated output: exactly the pushed group ids. -/
theorem outOf_tablesL {ps : List (Nat × Table)} (hg : ∀ p ∈ ps, ¬p.2.colNames = []) :
    (outOf ps).tablesL = ps.map Prod.fst := by
  cases ps with
  | nil => rfl
  | cons p0 tl =>
    obtain ⟨g0, n0⟩ := p0
    have hn0 : ¬n0.colNames = [] := hg (g0, n0) (by simp)
    by_cases hc : tl = [] ∧ g0 = rootGID
    · obtain ⟨htl, hg0⟩ := hc
      subst htl
      subst hg0
      show (Grouping.table n0).tablesL = [rootGID]
      show (if n0.colNames = [] then [] else [rootGID]) = [rootGID]
      rw [if_neg hn0]
    · have hout : outOf ((g0, n0) :: tl) = Grouping.grouped ⟨(g0, n0) :: tl,
          g0 :: tl.map Prod.fst, n0.colNames⟩ := by
        show (if tl = [] ∧ g0 = rootGID then Grouping.table n0
              else Grouping.grouped ⟨(g0, n0) :: tl, g0 :: tl.map Prod.fst,
                n0.colNames⟩) = _
        rw [if_neg hc]
      rw [hout]
      rfl

/-- `Table` of the accumulated output: lookup among the pushed pairs. -/
theorem outOf_tableAt {ps : List (Nat × Table)} (hg : ∀ p ∈ ps, ¬p.2.colNames = [])
    (gid : Nat) : (outOf ps).tableAt gid = alook ps gid := by
  cases ps with
  | nil =>
    show (if gid = rootGID ∧ ¬emptyTable.colNames = [] then some emptyTable else none) =
      none
    rw [if_neg (fun hc => hc.2 rfl)]
  | cons p0 tl =>
    obtain ⟨g0, n0⟩ := p0
    have hn0 : ¬n0.colNames = [] := hg (g0, n0) (by simp)
    by_cases hc : tl = [] ∧ g0 = rootGID
    · obtain ⟨htl, hg0⟩ := hc
      subst htl
      subst hg0
      show (if gid = rootGID ∧ ¬n0.colNames = [] then some n0 else none) =
        (if rootGID = gid then some n0 else alook [] gid)
      by_cases hgid : gid = rootGID
      · rw [if_pos ⟨hgid, hn0⟩, if_pos hgid.symm]
      · rw [if_neg (fun hx => hgid hx.1), if_neg (fun hx => hgid hx.symm)]
        rfl
    · have hout : outOf ((g0, n0) :: tl) = Grouping.grouped ⟨(g0, n0) :: tl,
          g0 :: tl.map Prod.fst, n0.colNames⟩ := by
        show (if tl = [] ∧ g0 = rootGID then Grouping.table n0
              else Grouping.grouped ⟨(g0, n0) :: tl, g0 :: tl.map Prod.fst,
                n0.colNames⟩) = _
        rw [if_neg hc]
      rw [hout]
      rfl

/-- Successfully pushing a duplicate-free sequence of non-empty tables lands
exactly on `outOf` of the pushed pairs. -/
theorem pushList_outOf :
    ∀ (ps2 ps1 : List (Nat × Table)) {g1 : Grouping},
      GoodPs (ps1 ++ ps2) →
      pushList (outOf ps1) ps2 = .ok g1 →
      g1 = outOf (ps1 ++ ps2) := by
  intro ps2
  induction ps2 with
  | nil =>
    intro ps1 g1 _ h
    have h2 : Except.ok (outOf ps1) = Except.ok g1 := h
    rw [← Except.ok.inj h2, List.append_nil]
  | cons p ps2' ih =>
    intro ps1 g1 hgood h
    obtain ⟨gid, nt⟩ := p
    rw [pushList_cons] at h
    cases haT : (outOf ps1).addTable gid (some nt) with
    | error e =>
      rw [haT] at h
      cases h
    | ok out1 =>
      rw [haT] at h
      have h2 : pushList out1 ps2' = .ok g1 := h
      have hgood1 : GoodPs (ps1 ++ [(gid, nt)]) := by
        constructor
        · apply List.Nodup.sublist _ hgood.1
          apply List.Sublist.map
          apply List.Sublist.append_left
          exact List.Sublist.cons₂ _ (List.nil_sublist ps2')
        · intro q hq
          apply hgood.2
          rcases List.mem_append.mp hq with hq | hq
          · exact List.mem_append.mpr (Or.inl hq)
          · rw [List.mem_singleton] at hq
            subst hq
            simp
      have hstep : out1 = outOf (ps1 ++ [(gid, nt)]) := push_step hgood1 haT
      rw [hstep] at h2
      have hassoc : (ps1 ++ [(gid, nt)]) ++ ps2' = ps1 ++ (gid, nt) :: ps2' := by
        rw [List.append_assoc]
        rfl
      have := ih (ps1 ++ [(gid, nt)]) (by rw [hassoc]; exact hgood) h2
      rw [hassoc] at this
      exact this

end GoGG

namespace GoGG

/-- Decompose a successful `SortBy` loop run into the list of pushed pairs:
each processed group id contributes its sorted table, and the output Grouping
is the result of pushing them in order. -/
theorem sortByLoop_decomp {g : Grouping} {cols : List String} :
    ∀ {gids : List Nat} {out g1 : Grouping},
      sortByLoop g cols gids out = .ok g1 →
      ∃ ps : List (Nat × Table),
        ps.map Prod.fst = gids ∧
        (∀ p ∈ ps, ∃ t, g.tableAt p.1 = some t ∧ sortGroup t cols = .ok p.2) ∧
        pushList out ps = .ok g1 := by
  intro gids
  induction gids with
  | nil =>
    intro out g1 h
    have h2 : Except.ok out = Except.ok g1 := h
    exact ⟨[], rfl, fun p hp => absurd hp (List.not_mem_nil p), h2⟩
  | cons gid rest ih =>
    intro out g1 h
    rw [sortByLoop_cons] at h
    cases htab : g.tableAt gid with
    | none =>
      rw [htab] at h
      cases h
    | some t =>
      rw [htab] at h
      have h2 : (match sortGroup t cols with
         | .error e => Except.error e
         | .ok nt =>
           match out.addTable gid (some nt) with
           | .error e => Except.error e
           | .ok out1 => sortByLoop g cols rest out1) = Except.ok g1 := h
      cases hsg : sortGroup t cols with
      | error e =>
        rw [hsg] at h2
        cases h2
      | ok nt =>
        rw [hsg] at h2
        have h2b : (match out.addTable gid (some nt) with
           | .error e => Except.error e
           | .ok out1 => sortByLoop g cols rest out1) = Except.ok g1 := h2
        cases haT : out.addTable gid (some nt) with
        | error e =>
          rw [haT] at h2b
          cases h2b
        | ok out1 =>
          rw [haT] at h2b
          have h3 : sortByLoop g cols rest out1 = .ok g1 := h2b
          obtain ⟨ps', hmap, hprops, hpush⟩ := ih h3
          refine ⟨(gid, nt) :: ps', by rw [List.map_cons, hmap], ?_, ?_⟩
          · intro p hp
            rcases List.mem_cons.mp hp with hp | hp
            · subst hp
              exact ⟨t, htab, hsg⟩
            · exact hprops p hp
          · rw [pushList_cons, haT]
            exact hpush

/-- Replaying the pushes on the finished output: each group id of the output
looks up its own table, sorting it is the identity, and pushing it again
walks the very same accumulation states. -/
theorem sortByLoop_replay {cols : List String} :
    ∀ (ps2 ps1 : List (Nat × Table)) {gfin : Grouping},
      GoodPs (ps1 ++ ps2) →
      (∀ p ∈ ps2, sortGroup p.2 cols = .ok p.2) →
      pushList (outOf ps1) ps2 = .ok gfin →
      sortByLoop (outOf (ps1 ++ ps2)) cols (ps2.map Prod.fst) (outOf ps1) =
        .ok (outOf (ps1 ++ ps2)) := by
  intro ps2
  induction ps2 with
  | nil =>
    intro ps1 gfin _ _ _
    rw [List.append_nil]
    rfl
  | cons p ps2' ih =>
    intro ps1 gfin hgood hfix hpush
    obtain ⟨gid, nt⟩ := p
    have hgall : ∀ q ∈ ps1 ++ (gid, nt) :: ps2', ¬q.2.colNames = [] := hgood.2
    have htab : (outOf (ps1 ++ (gid, nt) :: ps2')).tableAt gid = some nt := by
      rw [outOf_tableAt hgall]
      exact alook_of_mem_nodup hgood.1
        (List.mem_append.mpr (Or.inr (List.mem_cons_self _ _)))
    rw [List.map_cons, sortByLoop_cons, htab]
    have hsg : sortGroup nt cols = .ok nt := hfix (gid, nt) (List.mem_cons_self _ _)
    show (match sortGroup nt cols with
          | .error e => Except.error e
          | .ok nt1 =>
            match (outOf ps1).addTable gid (some nt1) with
            | .error e => Except.error e
            | .ok out1 => sortByLoop (outOf (ps1 ++ (gid, nt) :: ps2')) cols
                (ps2'.map Prod.fst) out1) =
        Except.ok (outOf (ps1 ++ (gid, nt) :: ps2'))
    rw [hsg]
    show (match (outOf ps1).addTable gid (some nt) with
          | .error e => Except.error e
          | .ok out1 => sortByLoop (outOf (ps1 ++ (gid, nt) :: ps2')) cols
              (ps2'.map Prod.fst) out1) =
        Except.ok (outOf (ps1 ++ (gid, nt) :: ps2'))
    rw [pushList_cons] at hpush
    have hpushb : (match (outOf ps1).addTable gid (some nt) with
        | .error e => Except.error e
        | .ok o1 => pushList o1 ps2') = Except.ok gfin := hpush
    cases haT : (outOf ps1).addTable gid (some nt) with
    | error e =>
      rw [haT] at hpushb
      cases hpushb
    | ok out1 =>
      rw [haT] at hpushb
      have hpush2 : pushList out1 ps2' = .ok gfin := hpushb
      have hgood1 : GoodPs (ps1 ++ [(gid, nt)]) := by
        constructor
        · apply List.Nodup.sublist _ hgood.1
          apply List.Sublist.map
          apply List.Sublist.append_left
          exact List.Sublist.cons₂ _ (List.nil_sublist ps2')
        · intro q hq
          apply hgall
          rcases List.mem_append.mp hq with hq | hq
          · exact List.mem_append.mpr (Or.inl hq)
          · rw [List.mem_singleton] at hq
            subst hq
            simp
      have hstep : out1 = outOf (ps1 ++ [(gid, nt)]) := push_step hgood1 haT
      rw [hstep] at hpush2
      have hassoc : (ps1 ++ [(gid, nt)]) ++ ps2' = ps1 ++ (gid, nt) :: ps2' := by
        rw [List.append_assoc]
        rfl
      have hrec := ih (ps1 ++ [(gid, nt)]) (by rw [hassoc]; exact hgood)
        (fun q hq => hfix q (List.mem_cons_of_mem _ hq)) hpush2
      rw [hassoc] at hrec
      rw [hstep]
      exact hrec

end GoGG

namespace GoGG

/-- Single-column `SortBy` is idempotent: a successful sort's output Grouping
is returned unchanged (as the same Grouping value) by a second sort on the
same column. -/
theorem sortBy_idem {g g1 : Grouping} {k : String}
    (hnd : g.tablesL.Nodup)
    (hwf : ∀ gid t, g.tableAt gid = some t → t.WF)
    (h : sortBy g [k] = .ok g1) :
    sortBy g1 [k] = .ok g1 := by
  have h0 : sortByLoop g [k] g.tablesL (.table emptyTable) = .ok g1 := h
  obtain ⟨ps, hmap, hprops, hpush⟩ := sortByLoop_decomp h0
  have hgood : GoodPs ps := by
    refine ⟨by rw [hmap]; exact hnd, ?_⟩
    intro p hp
    obtain ⟨t, htab, hsg⟩ := hprops p hp
    exact (sortGroup_fix (hwf p.1 t htab) hsg).2
  have hfix : ∀ p ∈ ps, sortGroup p.2 [k] = .ok p.2 := by
    intro p hp
    obtain ⟨t, htab, hsg⟩ := hprops p hp
    exact (sortGroup_fix (hwf p.1 t htab) hsg).1
  have hout : g1 = outOf ps := pushList_outOf ps [] hgood hpush
  have htl : g1.tablesL = ps.map Prod.fst := by
    rw [hout]
    exact outOf_tablesL hgood.2
  show sortByLoop g1 [k] g1.tablesL (.table emptyTable) = .ok g1
  rw [htl, hout]
  exact sortByLoop_replay ps [] hgood hfix hpush

theorem tX1_wf : tX1.WF := by
  refine ⟨?_, ?_, ?_, ?_, ?_, ?_, ?_, ?_, ?_, ?_⟩ <;> decide

/-- C9: `SortBy` with zero sort columns passes every group through unchanged;
a group all of whose sort columns are already sorted in the required order —
in particular every zero-row or single-row group — is passed through as the
same observable Table (in Go, the identical `*Table`); and single-column
`SortBy` is idempotent: when `SortBy(G, k)` succeeds with output `G1`,
`SortBy(G1, k)` succeeds and returns `G1` itself. -/
theorem C9_sortBy_idempotent :
    (∀ t : Table, sortGroup t [] = .ok t) ∧
    (∀ (t : Table) (cols : List String),
      (∀ c ∈ cols, ∃ s, (t.column c).1 = some s ∧ s.elemTy.orderable = true ∧
        isSortedSeq s.data = true) →
      ∃ t1, sortGroup t cols = .ok t1 ∧ obsEqT t1 t) ∧
    (∀ (t : Table) (cols : List String), t.WF → t.len ≤ 1 →
      (∀ c ∈ cols, ∃ s, (t.column c).1 = some s ∧ s.elemTy.orderable = true) →
      ∃ t1, sortGroup t cols = .ok t1 ∧ obsEqT t1 t) ∧
    (∀ (g g1 : Grouping) (k : String), g.tablesL.Nodup →
      (∀ gid t, g.tableAt gid = some t → t.WF) →
      sortBy g [k] = .ok g1 → sortBy g1 [k] = .ok g1) :=
  ⟨sortGroup_nil,
   fun _ _ h => sortGroup_pass h,
   fun _ _ hw hl h => sortGroup_short_pass hw hl h,
   fun _ _ _ hnd hwf h => sortBy_idem hnd hwf h⟩

/-- Witness for C9: the empty sort passes `tK533` through; the sorted
two-row group `tX2` and the single-row group `tX1` are passed through; and
re-sorting the output of `SortBy(Grouping(tX2), "x")` returns it unchanged. -/
theorem C9_sortBy_idempotent_witness :
    sortGroup tK533 [] = .ok tK533 ∧
    (∃ t1, sortGroup tX2 ["x"] = .ok t1 ∧ obsEqT t1 tX2) ∧
    (∃ t1, sortGroup tX1 ["x"] = .ok t1 ∧ obsEqT t1 tX1) ∧
    sortBy (.table tX2) ["x"] = .ok (.table tX2) := by
  refine ⟨C9_sortBy_idempotent.1 tK533, ?_, ?_, ?_⟩
  · apply C9_sortBy_idempotent.2.1 tX2 ["x"]
    intro c hc
    have hcx : c = "x" := by simpa using hc
    subst hcx
    exact ⟨⟨.int, [.int 1, .int 2]⟩, by decide, by decide, by decide⟩
  · apply C9_sortBy_idempotent.2.2.1 tX1 ["x"] tX1_wf (by decide)
    intro c hc
    have hcx : c = "x" := by simpa using hc
    subst hcx
    exact ⟨⟨.int, [.int 1]⟩, by decide, by decide⟩
  · apply C9_sortBy_idempotent.2.2.2 (.table tX2) (.table tX2) "x" (by decide)
    · intro gid t ht
      have h2 : (if gid = rootGID ∧ ¬tX2.colNames = [] then some tX2 else none) =
          some t := ht
      by_cases hc : gid = rootGID ∧ ¬tX2.colNames = []
      · rw [if_pos hc] at h2
        rw [← Option.some.inj h2]
        exact reach_wf tX2_reach
      · rw [if_neg hc] at h2
        cases h2
    · decide

end GoGG
